import Mathlib

/-!
Shallow embedding of the Debt-Reconciliation-Tool core (reconciliation and
SKU-mapping engine) and verification of its specification claims.

Numbers are modelled as rationals (`ℚ`); JS strings as Lean `String`
(character lists where convenient).  JS `Map` built from an entry array is
modelled as a function accumulator with later entries overwriting earlier
ones; JS `Set` of indices as a `List Nat`.
-/

namespace DebtRecon

/-- Line item of a document (`ProductItem` in `types.ts`). -/
structure ProductItem where
  name : String
  quantity : ℚ
  unitPrice : ℚ
  totalPrice : ℚ
deriving DecidableEq

/-- A supplier document or ledger row (`ReconciliationRecord` in `types.ts`);
`items` is optional. -/
structure ReconciliationRecord where
  id : String
  date : Option String
  description : String
  amount : ℚ
  items : Option (List ProductItem)
deriving DecidableEq

/-- A persisted supplier-name to system-name mapping (`ExistingMapping`). -/
structure ExistingMapping where
  crdfd_product_name : String
  crdfd_supplier_product_name : String
  crdfd_supplier : String
deriving DecidableEq

/-- `ComparisonStatus` enumeration from `types.ts`. -/
inductive ComparisonStatus where
  | matched
  | discrepancy
  | supplierOnly
  | processing
deriving DecidableEq

/-- A row of the comparison output (`ComparedItem`). -/
structure ComparedItem where
  status : ComparisonStatus
  supplierItem : Option ProductItem
  systemItem : Option ProductItem
  details : String
deriving DecidableEq

/-- Final reconciliation result shape (`ReconciliationResult`). -/
structure ReconciliationResult where
  summary : String
  totalSupplierAmount : ℚ
  totalSystemAmount : ℚ
  difference : ℚ
  comparedItems : List ComparedItem
deriving DecidableEq

/-- The synthetic line item built from a record with empty/absent `items`:
`{ name: description, quantity: 1, unitPrice: amount, totalPrice: amount }`. -/
def syntheticItem (r : ReconciliationRecord) : ProductItem :=
  { name := r.description, quantity := 1, unitPrice := r.amount, totalPrice := r.amount }

/-- Supplier-side flattening (`flattenSupplierItems`, also inlined in
`handleReconcile`): a record with a non-empty `items` list contributes its
items, otherwise one synthetic item.  (A JS array is truthy even when empty,
so the guard `record.items && record.items.length > 0` is
"items present and non-empty".) -/
def flattenSupplierItems (data : List ReconciliationRecord) : List ProductItem :=
  data.flatMap fun record =>
    match record.items with
    | some l => if l.length > 0 then l else [syntheticItem record]
    | none => [syntheticItem record]

/-- System-side flattening (`systemData.flatMap(record => record.items || [])`,
and `rec.items ?? []` in `findSkuMappings`): records with empty or absent
`items` contribute nothing (an empty array is truthy in JS, so `items || []`
returns the empty array itself). -/
def flattenSystemItems (data : List ReconciliationRecord) : List ProductItem :=
  data.flatMap fun record => record.items.getD []

/-- `toLowerCase` modelled character-wise (ASCII case folding, which covers
the product names in play). -/
def strLower (s : String) : String := ⟨s.data.map Char.toLower⟩

/-- The case-insensitive mapping lookup
`new Map(existingMappings.map(m => [m.crdfd_supplier_product_name.toLowerCase(), m.crdfd_product_name]))`:
a JS `Map` built from an entry array, later entries overwriting earlier
ones; one insertion step. -/
def mappingInsert (acc : String → Option String) (m : ExistingMapping) :
    String → Option String :=
  fun k =>
    if k = strLower m.crdfd_supplier_product_name then some m.crdfd_product_name else acc k

/-- Reading the built map at `key`. -/
def mappingMapGet (ms : List ExistingMapping) (key : String) : Option String :=
  ms.foldl mappingInsert (fun _ => none) key

/-- `allSystemItems.findIndex((sysItem, index) => sysItem.name === systemProductName && !usedSystemItemIndices.has(index))`,
scanning from index `i`. -/
def findSysItemIdxAux (target : String) (used : List Nat) :
    List ProductItem → Nat → Option Nat
  | [], _ => none
  | it :: rest, i =>
      if it.name = target ∧ i ∉ used then some i
      else findSysItemIdxAux target used rest (i + 1)

/-- First index of an unconsumed system item whose name equals `target`. -/
def findSysItemIdx (sys : List ProductItem) (target : String) (used : List Nat) : Option Nat :=
  findSysItemIdxAux target used sys 0

/-- A placeholder line item used only for the (unreachable) out-of-bounds
array access in the preprocessor step. -/
def dummyItem : ProductItem := { name := "", quantity := 0, unitPrice := 0, totalPrice := 0 }

/-- A simple rendering of a rational, standing in for JS number-to-string
conversion inside template literals. -/
def numRepr (q : ℚ) : String :=
  if q.den = 1 then toString q.num else toString q.num ++ "/" ++ toString q.den

/-- Details template for a Discrepancy row. -/
def discrepancyDetails (sq sp q2 p2 : ℚ) : String :=
  "Chênh lệch SL/ĐG. NCC: " ++ numRepr sq ++ " @ " ++ numRepr sp ++
    ", Wecare: " ++ numRepr q2 ++ " @ " ++ numRepr p2

/-- Fixed detail of a pre-processed SupplierOnly row. -/
def supplierOnlyDetails : String :=
  "Sản phẩm đã được mapping nhưng không có trong dữ liệu Wecare kỳ này."

/-- Mutable state of the preprocessing `forEach` pass. -/
structure PreprocessState where
  preProcessedItems : List ComparedItem
  itemsForAI_Supplier : List ProductItem
  usedSystemItemIndices : List Nat
deriving DecidableEq

/-- Body of the `allSupplierItems.forEach(supplierItem => …)` loop of
`preprocessItemsWithMappings` (part_004) / `handleReconcile` (part_006).
`if (systemProductName)` is JS truthiness: an absent entry and an
empty-string entry both take the `else` (residual) branch. -/
def preprocessStep (allSystemItems : List ProductItem) (ms : List ExistingMapping)
    (st : PreprocessState) (supplierItem : ProductItem) : PreprocessState :=
  match mappingMapGet ms (strLower supplierItem.name) with
  | some target =>
      if target = "" then
        { st with itemsForAI_Supplier := st.itemsForAI_Supplier ++ [supplierItem] }
      else
        match findSysItemIdx allSystemItems target st.usedSystemItemIndices with
        | some i =>
            let systemItem := allSystemItems.getD i dummyItem
            let isMatched :=
              supplierItem.quantity = systemItem.quantity ∧
                supplierItem.unitPrice = systemItem.unitPrice
            { st with
              usedSystemItemIndices := st.usedSystemItemIndices ++ [i]
              preProcessedItems := st.preProcessedItems ++
                [{ status := if isMatched then .matched else .discrepancy
                   supplierItem := some supplierItem
                   systemItem := some systemItem
                   details :=
                     if isMatched then ""
                     else discrepancyDetails supplierItem.quantity supplierItem.unitPrice
                       systemItem.quantity systemItem.unitPrice }] }
        | none =>
            { st with
              preProcessedItems := st.preProcessedItems ++
                [{ status := .supplierOnly
                   supplierItem := some supplierItem
                   systemItem := none
                   details := supplierOnlyDetails }] }
  | none =>
      { st with itemsForAI_Supplier := st.itemsForAI_Supplier ++ [supplierItem] }

/-- `preprocessItemsWithMappings` (part_004): run the pass over all supplier
items in original order, then the residual system items are those whose index
was never consumed. -/
def preprocessItemsWithMappings (allSupplierItems allSystemItems : List ProductItem)
    (existingMappings : List ExistingMapping) : PreprocessState × List ProductItem :=
  let st := allSupplierItems.foldl (preprocessStep allSystemItems existingMappings)
    { preProcessedItems := [], itemsForAI_Supplier := [], usedSystemItemIndices := [] }
  let itemsForAI_System :=
    (allSystemItems.enum.filter fun p => p.1 ∉ st.usedSystemItemIndices).map Prod.snd
  (st, itemsForAI_System)

/-- `allSupplierItems.reduce((sum, item) => sum + item.totalPrice, 0)`. -/
def sumTotalPrice (l : List ProductItem) : ℚ :=
  l.foldl (fun s i => s + i.totalPrice) 0

/-- `finalComparedItems.reduce((sum, item) => sum + (item.systemItem?.totalPrice || 0), 0)`:
optional chaining yields the price when `systemItem` is non-null, otherwise 0
(`x || 0` is the identity on defined numbers and 0 on `undefined`). -/
def sumSystemTotal (l : List ComparedItem) : ℚ :=
  l.foldl
    (fun s it => s + (match it.systemItem with | some si => si.totalPrice | none => 0)) 0

/-- JS whitespace test used by `trim` / `\s` (common ASCII whitespace). -/
def jsWs (c : Char) : Bool :=
  c = ' ' || c = '\t' || c = '\n' || c = '\r' || c = '\x0b' || c = '\x0c'

/-- `String.prototype.trim` on a character list. -/
def jsTrim (l : List Char) : List Char :=
  ((l.dropWhile jsWs).reverse.dropWhile jsWs).reverse

/-- `trim` on strings. -/
def jsTrimStr (s : String) : String := ⟨jsTrim s.data⟩

/-- The final summary string built in step 5 of `handleReconcile`. -/
def finalSummary (preCount : Nat) (aiSummary : String) : String :=
  jsTrimStr
    ((if preCount > 0 then
        "Đã tự động xử lý " ++ toString preCount ++ " sản phẩm dựa trên mapping đã lưu."
      else "") ++ " " ++ aiSummary)

/-! ### Fingerprint index and new-mapping discovery (`findSkuMappings`) -/

/-- Decimal digits of `n`, least significant first, with structural fuel
(`natDigitsAux n n` is fully evaluated since `n / 10 < n`). -/
def natDigitsAux : Nat → Nat → List Nat
  | 0, _ => []
  | fuel + 1, n => if n = 0 then [] else n % 10 :: natDigitsAux fuel (n / 10)

/-- Decimal digits of `n`, least significant first. -/
def natDigits (n : Nat) : List Nat := natDigitsAux n n

/-- Decimal rendering of a natural number (`"0"` for zero). -/
def natReprChars (n : Nat) : List Char :=
  if n = 0 then ['0'] else ((natDigits n).map Nat.digitChar).reverse

/-- The 4-digit zero-padded fractional part (`k < 10000` in use). -/
def pad4 (k : Nat) : List Char :=
  List.replicate (4 - (natReprChars k).length) '0' ++ natReprChars k

/-- ECMA-262 `toFixed` rounding of a non-negative scaled value: the integer
closest to `x`, ties resolved to the larger integer. -/
def jsRound (x : ℚ) : ℤ := ⌊x + 1 / 2⌋

/-- The scaled integer `toFixed(4)` renders: `round(|q| · 10^4)`. -/
def scaled4 (q : ℚ) : Nat := (jsRound (|q| * 10000)).toNat

/-- The unsigned part of a `toFixed(4)` rendering of the scaled magnitude
`n`: integer part, decimal point, four fractional digits. -/
def toFixed4Body (n : Nat) : List Char :=
  natReprChars (n / 10000) ++ '.' :: pad4 (n % 10000)

/-- `q.toFixed(4)` per ECMA-262: a `"-"` sign when `q < 0` (even when the
magnitude rounds to zero), then the rounded magnitude with exactly four
decimal digits.  (The `x ≥ 10^21` exponential branch of `toFixed` is not
modelled: such magnitudes are beyond double-precision granularity.) -/
def toFixed4Chars (q : ℚ) : List Char :=
  (if q < 0 then ['-'] else []) ++ toFixed4Body (scaled4 q)

/-- `q.toFixed(4)` as a string. -/
def toFixed4 (q : ℚ) : String := ⟨toFixed4Chars q⟩

/-- The fingerprint key `quantity.toFixed(4) + "-" + unitPrice.toFixed(4)`. -/
def fingerprintKeyChars (quantity unitPrice : ℚ) : List Char :=
  toFixed4Chars quantity ++ '-' :: toFixed4Chars unitPrice

/-- The fingerprint key of a line item. -/
def fingerprintKey (item : ProductItem) : String :=
  ⟨fingerprintKeyChars item.quantity item.unitPrice⟩

/-- The signed value `toFixed(4)` represents: "`q` rounded to 4 decimal
places" (rounding as `toFixed` rounds). -/
def round4 (q : ℚ) : ℚ :=
  (if q < 0 then -1 else 1) * (scaled4 q : ℚ) / 10000

/-- Little-endian value of a digit list, the left inverse of `natDigitsAux`
(used only to prove the decimal renderings injective). -/
def fromDigits : List Nat → Nat
  | [] => 0
  | d :: t => d + 10 * fromDigits t

/-- Big-endian decimal decoder, the left inverse of the decimal renderings
(used only to prove them injective). -/
def charsToNat (l : List Char) : Nat :=
  l.foldl (fun acc c => 10 * acc + (c.toNat - 48)) 0

/-- Insertion into the JS `Map<string, ProductItem[]>` grouping loop of
`findSkuMappings`: push onto an existing group, or append a fresh group.
System items are tagged with their flattened position, modelling JS object
identity (the source's `Set<ProductItem>` holds object references, so two
equal-valued items are distinct members). -/
def insertGroup (m : List (String × List (Nat × ProductItem))) (key : String)
    (item : Nat × ProductItem) : List (String × List (Nat × ProductItem)) :=
  if m.any (fun g => g.1 == key) then
    m.map (fun g => if g.1 == key then (g.1, g.2 ++ [item]) else g)
  else m ++ [(key, [item])]

/-- `systemItemsMap`: groups of identity-tagged system items keyed by
fingerprint, in insertion order. -/
def buildSystemItemsMap (l : List (Nat × ProductItem)) :
    List (String × List (Nat × ProductItem)) :=
  l.foldl (fun m p => insertGroup m (fingerprintKey p.2) p) []

/-- `systemItemsMap.get(key)`. -/
def mapGetGroup (m : List (String × List (Nat × ProductItem))) (key : String) :
    Option (List (Nat × ProductItem)) :=
  (m.find? (fun g => g.1 == key)).map Prod.snd

/-- State of the greedy pairing loop of `findSkuMappings`. -/
structure SkuState where
  mappings : List (ProductItem × (Nat × ProductItem))
  matchedSystemItems : List Nat
deriving DecidableEq

/-- Body of the `for (const supItem of supplierItems)` loop: look up the
fingerprint group, take the first not-yet-matched member, record the pair. -/
def skuStep (sysMap : List (String × List (Nat × ProductItem)))
    (st : SkuState) (supItem : ProductItem) : SkuState :=
  match mapGetGroup sysMap (fingerprintKey supItem) with
  | some potentialMatches =>
      match potentialMatches.find? (fun p => !(st.matchedSystemItems.contains p.1)) with
      | some m =>
          { mappings := st.mappings ++ [(supItem, m)]
            matchedSystemItems := st.matchedSystemItems ++ [m.1] }
      | none => st
  | none => st

/-- `findSkuMappings` (part_004): greedy fingerprint pairing, then the
already-persisted pairs are filtered out. -/
def findSkuMappings (extractedData systemData : List ReconciliationRecord)
    (existingMappings : List ExistingMapping) :
    List (ProductItem × (Nat × ProductItem)) :=
  let sysMap := buildSystemItemsMap (flattenSystemItems systemData).enum
  let supplierItems := flattenSupplierItems extractedData
  let st := supplierItems.foldl (skuStep sysMap) { mappings := [], matchedSystemItems := [] }
  st.mappings.filter fun pm =>
    !(existingMappings.any fun ex =>
        ex.crdfd_product_name == pm.2.2.name && ex.crdfd_supplier_product_name == pm.1.name)

/-- The pairing loop of `findSkuMappings` before the persisted-pair filter. -/
def skuPairingState (extractedData systemData : List ReconciliationRecord) : SkuState :=
  (flattenSupplierItems extractedData).foldl
    (skuStep (buildSystemItemsMap (flattenSystemItems systemData).enum))
    { mappings := [], matchedSystemItems := [] }

/-- The merge step of `handleReconcile` (part_006, step 5): given the
original inputs and whatever `ReconciliationResult` the AI delegate returned
(or the zero-valued default when nothing was delegated), build the final
published result. -/
def handleReconcileFinal (extractedData systemData : List ReconciliationRecord)
    (existingMappings : List ExistingMapping) (aiResult : ReconciliationResult) :
    ReconciliationResult :=
  let allSupplierItems := flattenSupplierItems extractedData
  let allSystemItems := flattenSystemItems systemData
  let pre := preprocessItemsWithMappings allSupplierItems allSystemItems existingMappings
  let totalSupplierAmount := sumTotalPrice allSupplierItems
  let finalComparedItems := pre.1.preProcessedItems ++ aiResult.comparedItems
  let finalSystemAmount := sumSystemTotal finalComparedItems
  { summary := finalSummary pre.1.preProcessedItems.length aiResult.summary
    totalSupplierAmount := totalSupplierAmount
    totalSystemAmount := finalSystemAmount
    difference := totalSupplierAmount - finalSystemAmount
    comparedItems := finalComparedItems }

/-! ### Recovery parser (`repairJson`, geminiService.ts lines 317-399) -/

/-- `pat` is a prefix of `l`. -/
def listStartsWith : List Char → List Char → Bool
  | [], _ => true
  | _ :: _, [] => false
  | p :: ps, c :: cs => p == c && listStartsWith ps cs

/-- Index of the first occurrence of `pat` as a contiguous sublist. -/
def findSub (pat : List Char) : List Char → Option Nat
  | [] => if listStartsWith pat [] then some 0 else none
  | c :: t =>
      if listStartsWith pat (c :: t) then some 0
      else (findSub pat t).map (· + 1)

/-- The capture group of the first match of `/```json\s*([\s\S]*?)\s*```/`:
the regex can only match starting at an occurrence of `"```json"`; with the
leading `\s*` greedy and the lazy group minimal, a match at the first such
occurrence closes at the first later `"```"`, and the group is the enclosed
segment with surrounding whitespace stripped.  (If the first occurrence of
`"```json"` has no later `"```"`, no occurrence does, since any later
`"```json"` contains one.) -/
def fenceGroup (l : List Char) : Option (List Char) :=
  match findSub "```json".data l with
  | none => none
  | some i =>
      let after := l.drop (i + 7)
      match findSub "```".data after with
      | none => none
      | some j => some (jsTrim (after.take j))

/-- Step 1 of `repairJson` after the trim: `if (match && match[1]) repaired =
match[1].trim()` — an empty capture is falsy and leaves the text unchanged. -/
def fenceStep (t : List Char) : List Char :=
  match fenceGroup t with
  | some g => if g.isEmpty then t else g
  | none => t

/-- State of the bracket-balancing scan: string mode, escape mode, depth. -/
structure ScanState where
  inString : Bool
  escape : Bool
  depth : Int
deriving DecidableEq

/-- One iteration of the scan of `repairJson` step 3 on one character. -/
def scanStep (startChar endChar : Char) (s : ScanState) (c : Char) : ScanState :=
  if s.inString then
    if s.escape then { s with escape := false }
    else if c = '\\' then { s with escape := true }
    else if c = '"' then { s with inString := false }
    else s
  else
    if c = '"' then { s with inString := true }
    else if c = startChar then { s with depth := s.depth + 1 }
    else if c = endChar then { s with depth := s.depth - 1 }
    else s

/-- Folding the scan transition over a character list. -/
def scanFold (startChar endChar : Char) (s : ScanState) (l : List Char) : ScanState :=
  l.foldl (scanStep startChar endChar) s

/-- The scan loop of `repairJson` step 3, faithful to its control flow: a
character met in string mode is processed and skipped (`continue`), otherwise
the depth test runs after the update and the loop breaks with the current
index when the depth is zero. -/
def scanLoop (startChar endChar : Char) : List Char → Nat → ScanState → Option Nat
  | [], _, _ => none
  | c :: rest, i, s =>
      let s' := scanStep startChar endChar s c
      if s.inString then scanLoop startChar endChar rest (i + 1) s'
      else if s'.depth = 0 then some i
      else scanLoop startChar endChar rest (i + 1) s'

/-- The initial scan state. -/
def initScan : ScanState := { inString := false, escape := false, depth := 0 }

/-- Specification-side balanced end: the least index `n` (relative to
`startIndex`) such that the depth after folding the scan over the characters
up to and including position `n` is zero. -/
def specEnd (startChar endChar : Char) (rest : List Char) : Option Nat :=
  (List.range rest.length).find? fun n =>
    (scanFold startChar endChar initScan (rest.take (n + 1))).depth == 0

/-- `indexOf` of a single character (`none` for JS `-1`). -/
def indexOfChar (c : Char) (l : List Char) : Option Nat := l.findIdx? (· == c)

/-- `lastIndexOf` of a single character. -/
def lastIndexOfChar (c : Char) (l : List Char) : Option Nat :=
  (l.reverse.findIdx? (· == c)).map (fun k => l.length - 1 - k)

/-- Step 2 of `repairJson`: the start index is the first `[` when it exists
and precedes the first `{` (or no `{` exists), otherwise the first `{`. -/
def chooseStart (firstBrace firstBracket : Option Nat) : Option Nat :=
  match firstBracket, firstBrace with
  | some k, some b => if k < b then some k else some b
  | some k, none => some k
  | none, some b => some b
  | none, none => none

/-- A closing structural character. -/
def closeChar (c : Char) : Bool := c = '}' || c = ']'

/-- Step 4 of `repairJson`:
`repaired.replace(/,\s*([}\]])/g, '$1')` — each comma followed by optional
whitespace and a closing brace/bracket is replaced by the closer alone,
scanning left to right and resuming after each match.  Structural fuel; the
recursive arguments only get shorter, so `length l` fuel is exact. -/
def stripCommasAux : Nat → List Char → List Char
  | 0, l => l
  | _ + 1, [] => []
  | fuel + 1, c :: rest =>
      if c = ',' then
        match rest.dropWhile jsWs with
        | cl :: t2 =>
            if closeChar cl then cl :: stripCommasAux fuel t2
            else ',' :: stripCommasAux fuel rest
        | [] => ',' :: stripCommasAux fuel rest
      else c :: stripCommasAux fuel rest

/-- The trailing-comma cleanup pass. -/
def stripCommas (l : List Char) : List Char := stripCommasAux l.length l

/-- Scan for an occurrence of the trailing-comma pattern
(`,` + whitespace + `}`/`]`) anywhere in the text. -/
def noCommaClose : List Char → Bool
  | [] => true
  | c :: rest =>
      if c = ',' then
        match rest.dropWhile jsWs with
        | cl :: _ => if closeChar cl then false else noCommaClose rest
        | [] => noCommaClose rest
      else noCommaClose rest

/-- Steps 2-4 of `repairJson`: locate the start, balance to find the end
(with fallbacks), then strip trailing commas.  When no `{` or `[` exists the
text is returned untouched (the early `return repaired` precedes the comma
cleanup). -/
def extractPhase (t : List Char) : List Char :=
  match chooseStart (indexOfChar '{' t) (indexOfChar '[' t) with
  | none => t
  | some startIndex =>
      let rest := t.drop startIndex
      let startChar := rest.headD ' '
      let endChar := if startChar = '{' then '}' else ']'
      match scanLoop startChar endChar rest startIndex initScan with
      | some endIndex => stripCommas ((t.take (endIndex + 1)).drop startIndex)
      | none =>
          match lastIndexOfChar endChar t with
          | some j =>
              if startIndex < j then stripCommas ((t.take (j + 1)).drop startIndex)
              else stripCommas (t.drop startIndex)
          | none => stripCommas (t.drop startIndex)

/-- `repairJson` on a character list: trim, fence extraction, then steps 2-4. -/
def repairChars (l : List Char) : List Char := extractPhase (fenceStep (jsTrim l))

/-- `repairJson` (geminiService.ts line 317). -/
def repairJson (s : String) : String := ⟨repairChars s.data⟩

/-! ### A validity checker for JSON payloads

Used only to state claims about well-formed classifier payloads; each
function consumes one syntactic fragment and returns the remaining input.
The grammar is a mild superset of JSON (any escaped character is allowed in
strings; numbers and keyword literals are merged into runs of atom
characters), which only strengthens theorems quantified over valid texts. -/

/-- `List.dropWhile jsWs`: skip insignificant whitespace. -/
def skipWs (l : List Char) : List Char := l.dropWhile jsWs

/-- Characters that may appear in an unquoted scalar token (numbers,
`true`/`false`/`null`): anything but structural characters, quotes,
backslashes and whitespace. -/
def atomChar (c : Char) : Bool :=
  !(c == '{' || c == '}' || c == '[' || c == ']' || c == ',' || c == ':' ||
      c == '"' || c == '\\') && !jsWs c

/-- Consume a string body after the opening quote, up to and including the
closing quote; a backslash escapes the following character. -/
def pStrBody : List Char → Option (List Char)
  | [] => none
  | c :: t =>
      if c = '"' then some t
      else if c = '\\' then
        match t with
        | [] => none
        | _ :: t2 => pStrBody t2
      else pStrBody t

mutual

/-- Consume one JSON value. -/
def pVal : Nat → List Char → Option (List Char)
  | 0, _ => none
  | fuel + 1, l =>
      match l with
      | [] => none
      | c :: t =>
          if c = '"' then pStrBody t
          else if c = '{' then pObjRest fuel (skipWs t)
          else if c = '[' then pArrRest fuel (skipWs t)
          else if atomChar c then some (t.dropWhile atomChar)
          else none

/-- After `{` and whitespace: an empty object or the first member. -/
def pObjRest : Nat → List Char → Option (List Char)
  | 0, _ => none
  | fuel + 1, l =>
      match l with
      | [] => none
      | c :: t => if c = '}' then some t else pMember fuel (c :: t)

/-- One `"key" : value` member followed by the object tail. -/
def pMember : Nat → List Char → Option (List Char)
  | 0, _ => none
  | fuel + 1, l =>
      match l with
      | [] => none
      | c :: t =>
          if c = '"' then
            match pStrBody t with
            | some r =>
                (match skipWs r with
                 | [] => none
                 | c2 :: r2 =>
                     if c2 = ':' then
                       match pVal fuel (skipWs r2) with
                       | some r3 => pObjTail fuel (skipWs r3)
                       | none => none
                     else none)
            | none => none
          else none

/-- After a member: `,` and another member, or the closing `}`. -/
def pObjTail : Nat → List Char → Option (List Char)
  | 0, _ => none
  | fuel + 1, l =>
      match l with
      | [] => none
      | c :: t =>
          if c = '}' then some t
          else if c = ',' then pMember fuel (skipWs t)
          else none

/-- After `[` and whitespace: an empty array or the first element. -/
def pArrRest : Nat → List Char → Option (List Char)
  | 0, _ => none
  | fuel + 1, l =>
      match l with
      | [] => none
      | c :: t =>
          if c = ']' then some t
          else
            match pVal fuel (c :: t) with
            | some r => pArrTail fuel (skipWs r)
            | none => none

/-- After an element: `,` and another element, or the closing `]`. -/
def pArrTail : Nat → List Char → Option (List Char)
  | 0, _ => none
  | fuel + 1, l =>
      match l with
      | [] => none
      | c :: t =>
          if c = ']' then some t
          else if c = ',' then
            match pVal fuel (skipWs t) with
            | some r => pArrTail fuel (skipWs r)
            | none => none
          else none

end

/-- A scan-neutral segment: starting outside a string at any depth `d`, the
balancing scan traverses `c` ending outside a string at depth `d + δ`, and
every proper prefix keeps the depth at `d` or above.  This is the invariant
connecting the JSON grammar to the recovery parser's scan. -/
def Seg (op cl : Char) (δ : Int) (c : List Char) : Prop :=
  ∀ d : Int,
    scanFold op cl ⟨false, false, d⟩ c = ⟨false, false, d + δ⟩ ∧
    ∀ n, n < c.length → (scanFold op cl ⟨false, false, d⟩ (c.take n)).depth ≥ d

/-- A complete, unfenced JSON payload: starts with `{` or `[` and the whole
text is exactly one value (the fuel `2·length + 8` covers any nesting, since
at least one character is consumed per two recursive calls). -/
def jsonValid (l : List Char) : Bool :=
  (match l with
   | '{' :: _ => true
   | '[' :: _ => true
   | _ => false) &&
  pVal (2 * l.length + 8) l == some []

/-! ## Theorems -/

/-- Folding `+ f i` over a list starting from `a` gives `a` plus the mapped sum. -/
theorem foldl_add_sum {α : Type} (f : α → ℚ) (l : List α) (a : ℚ) :
    l.foldl (fun s i => s + f i) a = a + (l.map f).sum := by
  induction l generalizing a with
  | nil => simp
  | cons x t ih => simp [ih]; ring

theorem sumTotalPrice_eq (l : List ProductItem) :
    sumTotalPrice l = (l.map (·.totalPrice)).sum := by
  simpa using foldl_add_sum (·.totalPrice) l 0

theorem sumSystemTotal_eq (l : List ComparedItem) :
    sumSystemTotal l =
      (l.map fun it =>
        match it.systemItem with | some si => si.totalPrice | none => 0).sum := by
  simpa using foldl_add_sum _ l 0

/-- **C1.** After the merge step of a reconciliation run, for every input and
regardless of the totals the AI delegate returned, the final result's
`totalSupplierAmount` is the sum of `totalPrice` over every flattened
supplier item of the original input, `totalSystemAmount` is the sum of
`systemItem.totalPrice` over all merged compared items (0 for rows with a
null `systemItem`), and `difference` is their difference. -/
theorem c1_merge_aggregate_consistency (e s : List ReconciliationRecord)
    (ms : List ExistingMapping) (ai : ReconciliationResult) :
    (handleReconcileFinal e s ms ai).totalSupplierAmount =
        ((flattenSupplierItems e).map (·.totalPrice)).sum ∧
    (handleReconcileFinal e s ms ai).totalSystemAmount =
        ((handleReconcileFinal e s ms ai).comparedItems.map fun it =>
          match it.systemItem with | some si => si.totalPrice | none => 0).sum ∧
    (handleReconcileFinal e s ms ai).difference =
        (handleReconcileFinal e s ms ai).totalSupplierAmount -
          (handleReconcileFinal e s ms ai).totalSystemAmount := by
  refine ⟨?_, ?_, ?_⟩ <;>
    simp [handleReconcileFinal, sumTotalPrice_eq, sumSystemTotal_eq]

/-- **C7 (counterexample).** A record with an empty `items` list flattened on
the system/ledger side contributes no line item at all — not the synthetic
item the claim asserts for "any record so flattened". -/
theorem c7_counterexample_system_side :
    flattenSystemItems
        [{ id := "1", date := none, description := "desc", amount := 7, items := some [] }] =
      [] ∧
    ([] : List ProductItem) ≠
      [syntheticItem
        { id := "1", date := none, description := "desc", amount := 7, items := some [] }] := by
  exact ⟨rfl, by simp⟩

/-- **C7 (amended).** A record with empty or absent `items` is flattened into
the single synthetic item `{name: description, quantity: 1, unitPrice:
amount, totalPrice: amount}` on the supplier side; system/ledger-side
flattening instead drops such a record, contributing nothing. -/
theorem c7_synthetic_fallback (pre post : List ReconciliationRecord)
    (r : ReconciliationRecord) (h : r.items = none ∨ r.items = some []) :
    flattenSupplierItems (pre ++ r :: post) =
        flattenSupplierItems pre ++ syntheticItem r :: flattenSupplierItems post ∧
    flattenSystemItems (pre ++ r :: post) =
        flattenSystemItems pre ++ flattenSystemItems post := by
  constructor <;>
  · simp only [flattenSupplierItems, flattenSystemItems, List.flatMap_append,
      List.flatMap_cons, List.append_assoc]
    rcases h with h | h <;> simp [h]

theorem c7_synthetic_fallback_witness :
    flattenSupplierItems ([] ++ (⟨"1", none, "d", 7, some []⟩ : ReconciliationRecord) :: []) =
        flattenSupplierItems [] ++
          syntheticItem ⟨"1", none, "d", 7, some []⟩ :: flattenSupplierItems [] ∧
    flattenSystemItems ([] ++ (⟨"1", none, "d", 7, some []⟩ : ReconciliationRecord) :: []) =
        flattenSystemItems [] ++ flattenSystemItems [] :=
  c7_synthetic_fallback [] [] ⟨"1", none, "d", 7, some []⟩ (Or.inr rfl)

/-- Entries whose lower-cased supplier name never equals `key` do not affect
the map at `key`. -/
theorem mappingFold_skip (key : String) :
    ∀ (ms : List ExistingMapping) (acc : String → Option String),
      (∀ m ∈ ms, strLower m.crdfd_supplier_product_name ≠ key) →
      ms.foldl mappingInsert acc key = acc key := by
  intro ms
  induction ms with
  | nil => intro acc _; rfl
  | cons m t ih =>
      intro acc h
      simp only [List.foldl_cons]
      rw [ih _ fun m' hm' => h m' (List.mem_cons_of_mem _ hm')]
      have hm : strLower m.crdfd_supplier_product_name ≠ key := h m (List.mem_cons_self _ _)
      simp only [mappingInsert]
      rw [if_neg fun hk => hm hk.symm]

/-- **C8.** When several `StoredMappings` entries lower-case to the same key,
the lookup map built by the preprocessor holds the system-item name of the
last such entry in the array: later entries overwrite earlier ones. -/
theorem c8_mapping_last_write_wins (ms1 ms2 : List ExistingMapping)
    (m : ExistingMapping) (key : String)
    (hm : strLower m.crdfd_supplier_product_name = key)
    (h2 : ∀ m' ∈ ms2, strLower m'.crdfd_supplier_product_name ≠ key) :
    mappingMapGet (ms1 ++ m :: ms2) key = some m.crdfd_product_name := by
  unfold mappingMapGet
  rw [List.foldl_append, List.foldl_cons, mappingFold_skip key ms2 _ h2]
  simp [mappingInsert, hm.symm]

theorem c8_mapping_last_write_wins_witness :
    mappingMapGet ([⟨"X", "Dup", "s"⟩] ++ (⟨"Y", "dUP", "s"⟩ : ExistingMapping) :: []) "dup" =
      some "Y" :=
  c8_mapping_last_write_wins [⟨"X", "Dup", "s"⟩] [] ⟨"Y", "dUP", "s"⟩ "dup"
    (by decide) (by simp)

/-- The `findIndex` scan returns `i0 + k` exactly for the least `k` whose
item matches the target name and whose (absolute) index is unconsumed. -/
theorem findSysItemIdxAux_some_iff (target : String) (used : List Nat) :
    ∀ (sys : List ProductItem) (i0 i : Nat),
      findSysItemIdxAux target used sys i0 = some i ↔
        ∃ k, k < sys.length ∧ i = i0 + k ∧
          ((sys.getD k dummyItem).name = target ∧ (i0 + k) ∉ used) ∧
          ∀ j, j < k → ¬((sys.getD j dummyItem).name = target ∧ (i0 + j) ∉ used) := by
  intro sys
  induction sys with
  | nil => intro i0 i; simp [findSysItemIdxAux]
  | cons x t ih =>
      intro i0 i
      rw [findSysItemIdxAux]
      by_cases hx : x.name = target ∧ i0 ∉ used
      · rw [if_pos hx]
        constructor
        · intro h
          injection h with h
          exact ⟨0, by simp, by omega, by simpa using hx, by omega⟩
        · rintro ⟨k, hk, hi, hP, hmin⟩
          cases k with
          | zero => simp only [Nat.add_zero] at hi; rw [hi]
          | succ k' =>
              exact absurd (by simpa using hx) (by simpa using hmin 0 (Nat.succ_pos k'))
      · rw [if_neg hx]
        rw [ih (i0 + 1) i]
        constructor
        · rintro ⟨k, hk, hi, hP, hmin⟩
          refine ⟨k + 1, by simpa using hk, by omega, ?_, ?_⟩
          · have e : i0 + (k + 1) = i0 + 1 + k := by omega
            simpa [e] using hP
          · intro j hj
            cases j with
            | zero => simpa using hx
            | succ j' =>
                have e : i0 + (j' + 1) = i0 + 1 + j' := by omega
                simpa [e] using hmin j' (by omega)
        · rintro ⟨k, hk, hi, hP, hmin⟩
          cases k with
          | zero => exact absurd (by simpa using hP) hx
          | succ k' =>
              refine ⟨k', by simp only [List.length_cons] at hk; omega, by omega, ?_, ?_⟩
              · have e : i0 + (k' + 1) = i0 + 1 + k' := by omega
                rw [← e]
                simpa using hP
              · intro j hj
                have e : i0 + (j + 1) = i0 + 1 + j := by omega
                have := hmin (j + 1) (by omega)
                rw [e] at this
                simpa using this

/-- The `findIndex` scan fails exactly when no item matches the target name
with an unconsumed index. -/
theorem findSysItemIdxAux_none_iff (target : String) (used : List Nat) :
    ∀ (sys : List ProductItem) (i0 : Nat),
      findSysItemIdxAux target used sys i0 = none ↔
        ∀ k, k < sys.length → ¬((sys.getD k dummyItem).name = target ∧ (i0 + k) ∉ used) := by
  intro sys
  induction sys with
  | nil => intro i0; simp [findSysItemIdxAux]
  | cons x t ih =>
      intro i0
      rw [findSysItemIdxAux]
      by_cases hx : x.name = target ∧ i0 ∉ used
      · rw [if_pos hx]
        constructor
        · intro h; cases h
        · intro h; exact absurd (by simpa using hx) (by simpa using h 0 (by simp))
      · rw [if_neg hx]
        rw [ih (i0 + 1)]
        constructor
        · intro h k hk
          cases k with
          | zero => simpa using hx
          | succ k' =>
              have e : i0 + (k' + 1) = i0 + 1 + k' := by omega
              simpa [e] using h k' (by simpa using hk)
        · intro h k hk
          have e : i0 + 1 + k = i0 + (k + 1) := by omega
          rw [e]
          simpa using h (k + 1) (by simp only [List.length_cons]; omega)

/-- **C2 (counterexample).** A stored mapping whose system-item name is the
empty string: the supplier item "has a mapping entry", and an unconsumed
system item with the mapped (empty) name exists, but the code's truthiness
test `if (systemProductName)` treats the looked-up empty name as no mapping,
so the item goes to the residual list and nothing is emitted — contradicting
the claimed Matched/Discrepancy/SupplierOnly emission. -/
theorem c2_counterexample_empty_mapped_name :
    mappingMapGet [⟨"", "x", "s"⟩] (strLower "x") = some "" ∧
    (preprocessItemsWithMappings [⟨"x", 1, 1, 1⟩] [⟨"", 1, 1, 1⟩]
        [⟨"", "x", "s"⟩]).1.preProcessedItems = [] ∧
    (preprocessItemsWithMappings [⟨"x", 1, 1, 1⟩] [⟨"", 1, 1, 1⟩]
        [⟨"", "x", "s"⟩]).1.itemsForAI_Supplier = [⟨"x", 1, 1, 1⟩] := by
  refine ⟨by decide, by decide, by decide⟩

/-- **C2 (amended).** For every supplier item whose lower-cased name has a
mapping entry *with a non-empty target name* (the code's truthiness test
drops empty ones): the first system item in original order whose name equals
the mapped name and that was not consumed earlier is consumed, and the
emitted row is Matched exactly when quantity and unit price both agree,
otherwise Discrepancy with a details string naming both quantities and both
prices; when no such unconsumed system item exists, a SupplierOnly row with
the fixed detail and null `systemItem` is emitted.  Supplier items with no
mapping entry go to the residual list and consume nothing. -/
theorem c2_preprocessor_step_behavior (sys : List ProductItem)
    (ms : List ExistingMapping) (st : PreprocessState) (x : ProductItem)
    (target : String) (hmap : mappingMapGet ms (strLower x.name) = some target)
    (hne : target ≠ "") :
    (∀ i, findSysItemIdx sys target st.usedSystemItemIndices = some i →
      (((sys.getD i dummyItem).name = target ∧ i ∉ st.usedSystemItemIndices ∧
        ∀ j, j < i →
          ¬((sys.getD j dummyItem).name = target ∧ j ∉ st.usedSystemItemIndices)) ∧
      ∃ row,
        preprocessStep sys ms st x =
          { preProcessedItems := st.preProcessedItems ++ [row]
            itemsForAI_Supplier := st.itemsForAI_Supplier
            usedSystemItemIndices := st.usedSystemItemIndices ++ [i] } ∧
        row.supplierItem = some x ∧
        row.systemItem = some (sys.getD i dummyItem) ∧
        (row.status = .matched ↔
          (x.quantity = (sys.getD i dummyItem).quantity ∧
            x.unitPrice = (sys.getD i dummyItem).unitPrice)) ∧
        (row.status = .matched ∨ row.status = .discrepancy) ∧
        (row.status = .matched → row.details = "") ∧
        (row.status = .discrepancy →
          row.details = discrepancyDetails x.quantity x.unitPrice
            (sys.getD i dummyItem).quantity (sys.getD i dummyItem).unitPrice))) ∧
    (findSysItemIdx sys target st.usedSystemItemIndices = none →
      preprocessStep sys ms st x =
        { preProcessedItems := st.preProcessedItems ++
            [{ status := .supplierOnly, supplierItem := some x, systemItem := none,
               details := supplierOnlyDetails }]
          itemsForAI_Supplier := st.itemsForAI_Supplier
          usedSystemItemIndices := st.usedSystemItemIndices }) ∧
    (∀ y : ProductItem, mappingMapGet ms (strLower y.name) = none →
      preprocessStep sys ms st y =
        { preProcessedItems := st.preProcessedItems
          itemsForAI_Supplier := st.itemsForAI_Supplier ++ [y]
          usedSystemItemIndices := st.usedSystemItemIndices }) := by
  refine ⟨?_, ?_, ?_⟩
  · intro i hi
    constructor
    · have h := (findSysItemIdxAux_some_iff target st.usedSystemItemIndices sys 0 i).1 hi
      obtain ⟨k, hk, hik, hP, hmin⟩ := h
      simp only [Nat.zero_add] at hik hP hmin
      subst hik
      exact ⟨hP.1, hP.2, fun j hj => by simpa using hmin j hj⟩
    · by_cases hm : x.quantity = (sys.getD i dummyItem).quantity ∧
          x.unitPrice = (sys.getD i dummyItem).unitPrice
      · refine ⟨⟨.matched, some x, some (sys.getD i dummyItem), ""⟩, ?_, rfl, rfl,
            by simp [hm], by simp, by simp, by simp⟩
        simp only [preprocessStep, hmap, hi, if_neg hne, if_pos hm]
      · refine ⟨⟨.discrepancy, some x, some (sys.getD i dummyItem),
            discrepancyDetails x.quantity x.unitPrice
              (sys.getD i dummyItem).quantity (sys.getD i dummyItem).unitPrice⟩, ?_, rfl, rfl,
            by simpa using hm, by simp, by simp, by simp⟩
        simp only [preprocessStep, hmap, hi, if_neg hne, if_neg hm]
  · intro hn
    simp only [preprocessStep, hmap, hn, if_neg hne]
  · intro y hy
    simp only [preprocessStep, hy]

theorem c2_preprocessor_step_behavior_witness :
    mappingMapGet [⟨"SYS", "Sup", "s"⟩] (strLower "sUP") = some "SYS" ∧
    ("SYS" : String) ≠ "" ∧
    findSysItemIdx [⟨"SYS", 2, 3, 6⟩] "SYS" [] = some 0 ∧
    (preprocessStep [⟨"SYS", 2, 3, 6⟩] [⟨"SYS", "Sup", "s"⟩]
        { preProcessedItems := [], itemsForAI_Supplier := [], usedSystemItemIndices := [] }
        ⟨"sUP", 2, 3, 6⟩).preProcessedItems =
      [{ status := .matched, supplierItem := some ⟨"sUP", 2, 3, 6⟩,
         systemItem := some ⟨"SYS", 2, 3, 6⟩, details := "" }] := by
  refine ⟨by decide, by decide, by decide, ?_⟩
  have h := c2_preprocessor_step_behavior [⟨"SYS", 2, 3, 6⟩] [⟨"SYS", "Sup", "s"⟩]
    { preProcessedItems := [], itemsForAI_Supplier := [], usedSystemItemIndices := [] }
    ⟨"sUP", 2, 3, 6⟩ "SYS" (by decide) (by decide)
  obtain ⟨row, hstep, hsup, hsys, hiff, hor, hmd, hdd⟩ := (h.1 0 (by decide)).2
  have hst : row.status = ComparisonStatus.matched := hiff.2 (by decide)
  have hd : row.details = "" := hmd hst
  have hrow : row =
      (⟨.matched, some ⟨"sUP", 2, 3, 6⟩, some ⟨"SYS", 2, 3, 6⟩, ""⟩ : ComparedItem) := by
    cases row
    simp at hsup hsys hst hd
    simp only [ComparedItem.mk.injEq]
    exact ⟨hst, hsup, hsys, hd⟩
  rw [hstep]
  simp [hrow]

/-- **C9 (counterexample).** The case-sensitivity claim fails for an
empty-string mapped target: the mapping is found (case-insensitively), the
target differs from every system item's name, yet the truthiness test sends
the item to the residual list instead of emitting a SupplierOnly row. -/
theorem c9_counterexample_empty_target :
    mappingMapGet [⟨"", "x", "s"⟩] (strLower "x") = some "" ∧
    (∀ it ∈ [(⟨"abc", 1, 1, 1⟩ : ProductItem)], it.name ≠ "") ∧
    preprocessStep [⟨"abc", 1, 1, 1⟩] [⟨"", "x", "s"⟩]
        { preProcessedItems := [], itemsForAI_Supplier := [], usedSystemItemIndices := [] }
        ⟨"x", 1, 1, 1⟩ =
      { preProcessedItems := [], itemsForAI_Supplier := [⟨"x", 1, 1, 1⟩],
        usedSystemItemIndices := [] } := by
  refine ⟨by decide, by decide, by decide⟩

/-- **C9 (amended).** The mapping lookup is case-insensitive (the lookup key
is the lower-cased supplier name), but the system-item search compares names
case-sensitively; hence a mapping whose non-empty target name differs — in
letter case or otherwise — from every system item's name always produces a
SupplierOnly row for that supplier item, never Matched or Discrepancy. -/
theorem c9_case_mismatch_supplier_only (sys : List ProductItem)
    (ms : List ExistingMapping) (st : PreprocessState) (x : ProductItem)
    (target : String) (hmap : mappingMapGet ms (strLower x.name) = some target)
    (hne : target ≠ "") (hcase : ∀ it ∈ sys, it.name ≠ target) :
    preprocessStep sys ms st x =
      { preProcessedItems := st.preProcessedItems ++
          [{ status := .supplierOnly, supplierItem := some x, systemItem := none,
             details := supplierOnlyDetails }]
        itemsForAI_Supplier := st.itemsForAI_Supplier
        usedSystemItemIndices := st.usedSystemItemIndices } := by
  have hn : findSysItemIdx sys target st.usedSystemItemIndices = none := by
    rw [findSysItemIdx, findSysItemIdxAux_none_iff]
    intro k hk hP
    have hmem : sys.getD k dummyItem ∈ sys := by
      rw [List.getD_eq_getElem sys dummyItem hk]
      exact List.getElem_mem hk
    exact hcase (sys.getD k dummyItem) hmem hP.1
  simp only [preprocessStep, hmap, hn, if_neg hne]

theorem c9_case_mismatch_supplier_only_witness :
    preprocessStep [⟨"abc", 1, 1, 1⟩] [⟨"Abc", "p", "s"⟩]
        { preProcessedItems := [], itemsForAI_Supplier := [], usedSystemItemIndices := [] }
        ⟨"P", 1, 1, 1⟩ =
      { preProcessedItems :=
          [⟨.supplierOnly, some ⟨"P", 1, 1, 1⟩, none, supplierOnlyDetails⟩]
        itemsForAI_Supplier := []
        usedSystemItemIndices := [] } := by
  have h := c9_case_mismatch_supplier_only [⟨"abc", 1, 1, 1⟩] [⟨"Abc", "p", "s"⟩]
    { preProcessedItems := [], itemsForAI_Supplier := [], usedSystemItemIndices := [] }
    ⟨"P", 1, 1, 1⟩ "Abc" (by decide) (by decide) (by decide)
  simpa using h

/-- One preprocessor step either leaves the consumed-index set unchanged or
appends a single index that was not yet consumed. -/
theorem preprocessStep_used (sys : List ProductItem) (ms : List ExistingMapping)
    (st : PreprocessState) (x : ProductItem) :
    (preprocessStep sys ms st x).usedSystemItemIndices = st.usedSystemItemIndices ∨
    ∃ i, i ∉ st.usedSystemItemIndices ∧
      (preprocessStep sys ms st x).usedSystemItemIndices =
        st.usedSystemItemIndices ++ [i] := by
  cases hmap : mappingMapGet ms (strLower x.name) with
  | none => left; simp only [preprocessStep, hmap]
  | some target =>
      by_cases hne : target = ""
      · left; simp only [preprocessStep, hmap, if_pos hne]
      · cases hfind : findSysItemIdx sys target st.usedSystemItemIndices with
        | none => left; simp only [preprocessStep, hmap, hfind, if_neg hne]
        | some i =>
            right
            refine ⟨i, ?_, by simp only [preprocessStep, hmap, hfind, if_neg hne]⟩
            obtain ⟨k, _, hik, hP, _⟩ :=
              (findSysItemIdxAux_some_iff target st.usedSystemItemIndices sys 0 i).1 hfind
            simp only [Nat.zero_add] at hik hP
            rw [hik]
            exact hP.2

/-- The consumed-index set stays duplicate-free across the preprocessor pass. -/
theorem preprocess_used_nodup (sys : List ProductItem) (ms : List ExistingMapping) :
    ∀ (sup : List ProductItem) (st : PreprocessState),
      st.usedSystemItemIndices.Nodup →
      ((sup.foldl (preprocessStep sys ms) st).usedSystemItemIndices).Nodup := by
  intro sup
  induction sup with
  | nil => intro st h; exact h
  | cons x t ih =>
      intro st h
      rw [List.foldl_cons]
      apply ih
      rcases preprocessStep_used sys ms st x with heq | ⟨i, hin, heq⟩
      · rw [heq]; exact h
      · rw [heq]
        simp [List.nodup_append, h, hin]

/-- Enumeration is indexing along the range of positions. -/
theorem enum_eq_map_range (l : List ProductItem) :
    l.enum = (List.range l.length).map (fun i => (i, l.getD i dummyItem)) := by
  apply List.ext_getElem
  · simp
  · intro i h1 h2
    have hl : i < l.length := by simpa using h1
    simp [List.getD, List.getElem?_eq_getElem hl]

/-- The `filter((_, index) => …)` over an enumerated list equals indexing by
the surviving positions. -/
theorem enum_filter_map_eq (used : List Nat) (l : List ProductItem) :
    ((l.enum.filter fun p => p.1 ∉ used).map Prod.snd) =
      ((List.range l.length).filter fun i => i ∉ used).map
        (fun i => l.getD i dummyItem) := by
  rw [enum_eq_map_range, List.map_filter, List.map_map]
  rfl

/-- One discovery step either leaves the state unchanged or records one pair
whose system identity was not yet matched. -/
theorem skuStep_cases (sysMap : List (String × List (Nat × ProductItem)))
    (st : SkuState) (x : ProductItem) :
    skuStep sysMap st x = st ∨
    ∃ m, m.1 ∉ st.matchedSystemItems ∧
      skuStep sysMap st x =
        { mappings := st.mappings ++ [(x, m)]
          matchedSystemItems := st.matchedSystemItems ++ [m.1] } := by
  cases hg : mapGetGroup sysMap (fingerprintKey x) with
  | none => left; simp only [skuStep, hg]
  | some grp =>
      cases hf : grp.find? (fun p => !(st.matchedSystemItems.contains p.1)) with
      | none => left; simp only [skuStep, hg, hf]
      | some m =>
          right
          exact ⟨m, by simpa using List.find?_some hf, by simp only [skuStep, hg, hf]⟩

/-- Along the discovery pass, the recorded pairs' system identities coincide
with the matched-identity list, which stays duplicate-free. -/
theorem skuStep_invariant (sysMap : List (String × List (Nat × ProductItem))) :
    ∀ (sup : List ProductItem) (st : SkuState),
      st.mappings.map (fun pm => pm.2.1) = st.matchedSystemItems →
      st.matchedSystemItems.Nodup →
      ((sup.foldl (skuStep sysMap) st).mappings.map (fun pm => pm.2.1) =
          (sup.foldl (skuStep sysMap) st).matchedSystemItems ∧
        (sup.foldl (skuStep sysMap) st).matchedSystemItems.Nodup) := by
  intro sup
  induction sup with
  | nil => intro st h1 h2; exact ⟨h1, h2⟩
  | cons x t ih =>
      intro st h1 h2
      rw [List.foldl_cons]
      rcases skuStep_cases sysMap st x with heq | ⟨m, hm, heq⟩
      · rw [heq]; exact ih st h1 h2
      · rw [heq]
        apply ih
        · simp [List.map_append, h1]
        · simp [List.nodup_append, h2, hm]

/-- **C4.** Within a single preprocessor pass no system index is consumed
twice (the used-index list is duplicate-free), the residual system items are
exactly the system items at the never-consumed indices in order, and within
a single new-mapping discovery pass no system item (by object identity) is
paired with more than one supplier item — both before and after the
persisted-mapping filter. -/
theorem c4_no_double_consumption (sup sys : List ProductItem)
    (ms ms2 : List ExistingMapping) (e s : List ReconciliationRecord) :
    ((preprocessItemsWithMappings sup sys ms).1.usedSystemItemIndices).Nodup ∧
    (preprocessItemsWithMappings sup sys ms).2 =
      ((List.range sys.length).filter fun i =>
          i ∉ (preprocessItemsWithMappings sup sys ms).1.usedSystemItemIndices).map
        (fun i => sys.getD i dummyItem) ∧
    (((skuPairingState e s).mappings.map fun pm => pm.2.1).Nodup) ∧
    (((findSkuMappings e s ms2).map fun pm => pm.2.1).Nodup) := by
  have hpre : ((preprocessItemsWithMappings sup sys ms).1.usedSystemItemIndices).Nodup :=
    preprocess_used_nodup sys ms sup _ (by simp)
  have hsku := skuStep_invariant
    (buildSystemItemsMap (flattenSystemItems s).enum)
    (flattenSupplierItems e)
    { mappings := [], matchedSystemItems := [] } (by simp) (by simp)
  refine ⟨hpre, ?_, ?_, ?_⟩
  · exact enum_filter_map_eq _ sys
  · rw [skuPairingState, hsku.1]
    exact hsku.2
  · have hsub : List.Sublist ((findSkuMappings e s ms2).map (fun pm => pm.2.1))
        ((skuPairingState e s).mappings.map fun pm => pm.2.1) := by
      apply List.Sublist.map
      exact List.filter_sublist _
    apply List.Nodup.sublist hsub
    rw [skuPairingState, hsku.1]
    exact hsku.2

/-! ### Decimal rendering: injectivity machinery for the fingerprint key -/

theorem fromDigits_natDigitsAux :
    ∀ (fuel n : Nat), n ≤ fuel → fromDigits (natDigitsAux fuel n) = n := by
  intro fuel
  induction fuel with
  | zero =>
      intro n h
      have : n = 0 := by omega
      subst this
      rfl
  | succ f ih =>
      intro n h
      rw [natDigitsAux]
      by_cases hn : n = 0
      · simp [hn, fromDigits]
      · rw [if_neg hn, fromDigits]
        have hdiv : n / 10 < n := Nat.div_lt_self (Nat.pos_of_ne_zero hn) (by omega)
        rw [ih (n / 10) (by omega)]
        omega

theorem natDigitsAux_lt_ten :
    ∀ (fuel n : Nat), ∀ d ∈ natDigitsAux fuel n, d < 10 := by
  intro fuel
  induction fuel with
  | zero => intro n d hd; simp [natDigitsAux] at hd
  | succ f ih =>
      intro n d hd
      rw [natDigitsAux] at hd
      by_cases hn : n = 0
      · simp [hn] at hd
      · rw [if_neg hn] at hd
        rcases List.mem_cons.1 hd with h | h
        · subst h; exact Nat.mod_lt _ (by omega)
        · exact ih _ d h

theorem digitChar_toNat_sub (d : Nat) (h : d < 10) : (Nat.digitChar d).toNat - 48 = d := by
  interval_cases d <;> rfl

theorem digitChar_ne_markers (d : Nat) (h : d < 10) :
    Nat.digitChar d ≠ '-' ∧ Nat.digitChar d ≠ '.' := by
  interval_cases d <;> exact ⟨by decide, by decide⟩

theorem charsToNat_append_singleton (a : List Char) (c : Char) :
    charsToNat (a ++ [c]) = 10 * charsToNat a + (c.toNat - 48) := by
  simp [charsToNat, List.foldl_append]

theorem charsToNat_rev_digits :
    ∀ ds : List Nat, (∀ d ∈ ds, d < 10) →
      charsToNat ((ds.map Nat.digitChar).reverse) = fromDigits ds := by
  intro ds
  induction ds with
  | nil => intro _; rfl
  | cons d t ih =>
      intro h
      rw [List.map_cons, List.reverse_cons, charsToNat_append_singleton]
      rw [ih fun d' hd' => h d' (List.mem_cons_of_mem _ hd')]
      rw [digitChar_toNat_sub d (h d (List.mem_cons_self _ _))]
      rw [fromDigits]
      omega

theorem charsToNat_natReprChars (n : Nat) : charsToNat (natReprChars n) = n := by
  by_cases hn : n = 0
  · subst hn; rfl
  · rw [natReprChars, if_neg hn, natDigits]
    rw [charsToNat_rev_digits _ (natDigitsAux_lt_ten n n)]
    exact fromDigits_natDigitsAux n n le_rfl

theorem charsToNat_replicate_zero_append (m : Nat) (l : List Char) :
    charsToNat (List.replicate m '0' ++ l) = charsToNat l := by
  have hz : ∀ k, List.foldl (fun acc c => 10 * acc + (c.toNat - 48))
      0 (List.replicate k '0') = 0 := by
    intro k
    induction k with
    | zero => rfl
    | succ k ih => rw [List.replicate_succ, List.foldl_cons]; exact ih
  simp only [charsToNat, List.foldl_append]
  rw [hz m]

theorem charsToNat_pad4 (k : Nat) : charsToNat (pad4 k) = k := by
  rw [pad4, charsToNat_replicate_zero_append]
  exact charsToNat_natReprChars k

theorem natReprChars_inj {a b : Nat} (h : natReprChars a = natReprChars b) : a = b := by
  have := congrArg charsToNat h
  rwa [charsToNat_natReprChars, charsToNat_natReprChars] at this

theorem pad4_inj {a b : Nat} (h : pad4 a = pad4 b) : a = b := by
  have := congrArg charsToNat h
  rwa [charsToNat_pad4, charsToNat_pad4] at this

theorem natReprChars_no_markers (n : Nat) :
    ∀ c ∈ natReprChars n, c ≠ '-' ∧ c ≠ '.' := by
  intro c hc
  by_cases hn : n = 0
  · subst hn
    rw [natReprChars] at hc
    simp at hc
    subst hc
    exact ⟨by decide, by decide⟩
  · rw [natReprChars, if_neg hn, List.mem_reverse, natDigits] at hc
    obtain ⟨d, hd, rfl⟩ := List.mem_map.1 hc
    exact digitChar_ne_markers d (natDigitsAux_lt_ten n n d hd)

theorem pad4_no_markers (k : Nat) : ∀ c ∈ pad4 k, c ≠ '-' ∧ c ≠ '.' := by
  intro c hc
  rw [pad4, List.mem_append] at hc
  rcases hc with hc | hc
  · rw [List.eq_of_mem_replicate hc]
    exact ⟨by decide, by decide⟩
  · exact natReprChars_no_markers k c hc

theorem natReprChars_ne_nil (n : Nat) : natReprChars n ≠ [] := by
  by_cases hn : n = 0
  · subst hn; simp [natReprChars]
  · rw [natReprChars, if_neg hn]
    cases n with
    | zero => exact absurd rfl hn
    | succ m =>
        rw [natDigits, natDigitsAux, if_neg hn]
        simp

/-- The separator-splitting lemma: a separator-free prefix before the first
separator determines the split. -/
theorem append_sep_inj (sep : Char) :
    ∀ (a c b d : List Char), sep ∉ a → sep ∉ c →
      a ++ sep :: b = c ++ sep :: d → a = c ∧ b = d := by
  intro a
  induction a with
  | nil =>
      intro c b d _ hc h
      cases c with
      | nil => simpa using h
      | cons y t =>
          simp only [List.nil_append, List.cons_append, List.cons.injEq] at h
          exact absurd (show sep ∈ y :: t by rw [h.1]; exact List.mem_cons_self y t) hc
  | cons x ta ih =>
      intro c b d ha hc h
      cases c with
      | nil =>
          simp only [List.cons_append, List.nil_append, List.cons.injEq] at h
          exact absurd
            (show sep ∈ x :: ta by rw [h.1]; exact List.mem_cons_self sep ta) ha
      | cons y t =>
          simp only [List.cons_append, List.cons.injEq] at h
          obtain ⟨rfl, h2⟩ := h
          have := ih t b d (fun hm => ha (List.mem_cons_of_mem _ hm))
            (fun hm => hc (List.mem_cons_of_mem _ hm)) h2
          exact ⟨by rw [this.1], this.2⟩

theorem dot_not_mem_natReprChars (n : Nat) : '.' ∉ natReprChars n :=
  fun h => (natReprChars_no_markers n '.' h).2 rfl

theorem dash_not_mem_body (s : Nat) : '-' ∉ toFixed4Body s := by
  intro h
  rw [toFixed4Body] at h
  rcases List.mem_append.1 h with h | h
  · exact (natReprChars_no_markers _ _ h).1 rfl
  · rcases List.mem_cons.1 h with h | h
    · exact absurd h (by decide)
    · exact (pad4_no_markers _ _ h).1 rfl

/-- The unsigned rendering determines the scaled magnitude. -/
theorem toFixed4Body_inj {a b : Nat} (h : toFixed4Body a = toFixed4Body b) : a = b := by
  rw [toFixed4Body, toFixed4Body] at h
  obtain ⟨hd, hf⟩ := append_sep_inj '.' _ _ _ _
    (dot_not_mem_natReprChars _) (dot_not_mem_natReprChars _) h
  have e1 := natReprChars_inj hd
  have e2 := pad4_inj hf
  omega

/-- The unsigned rendering starts with a digit, never the minus sign. -/
theorem toFixed4Body_head (n : Nat) :
    ∃ c cs, toFixed4Body n = c :: cs ∧ c ≠ '-' := by
  obtain ⟨c, cs, hc⟩ := List.exists_cons_of_ne_nil (natReprChars_ne_nil (n / 10000))
  refine ⟨c, cs ++ '.' :: pad4 (n % 10000), ?_, ?_⟩
  · rw [toFixed4Body, hc, List.cons_append]
  · exact (natReprChars_no_markers _ c (by rw [hc]; exact List.mem_cons_self _ _)).1

/-- Two `toFixed(4)` renderings agree exactly when the sign flags agree and
the rounded scaled magnitudes agree. -/
theorem toFixed4Chars_eq_iff (q1 q2 : ℚ) :
    toFixed4Chars q1 = toFixed4Chars q2 ↔
      ((q1 < 0) ↔ (q2 < 0)) ∧ scaled4 q1 = scaled4 q2 := by
  constructor
  · intro h
    rw [toFixed4Chars, toFixed4Chars] at h
    by_cases h1 : q1 < 0 <;> by_cases h2 : q2 < 0
    · rw [if_pos h1, if_pos h2, List.singleton_append, List.singleton_append] at h
      injection h with _ h
      exact ⟨iff_of_true h1 h2, toFixed4Body_inj h⟩
    · exfalso
      obtain ⟨c, cs, hc, hne⟩ := toFixed4Body_head (scaled4 q2)
      rw [if_pos h1, if_neg h2, List.singleton_append, List.nil_append, hc] at h
      injection h with h _
      exact hne h.symm
    · exfalso
      obtain ⟨c, cs, hc, hne⟩ := toFixed4Body_head (scaled4 q1)
      rw [if_neg h1, if_pos h2, List.singleton_append, List.nil_append, hc] at h
      injection h with h _
      exact hne h
    · rw [if_neg h1, if_neg h2, List.nil_append, List.nil_append] at h
      exact ⟨iff_of_false h1 h2, toFixed4Body_inj h⟩
  · rintro ⟨hiff, hs⟩
    rw [toFixed4Chars, toFixed4Chars, hs]
    by_cases h1 : q1 < 0
    · rw [if_pos h1, if_pos (hiff.1 h1)]
    · rw [if_neg h1, if_neg (fun h2 => h1 (hiff.2 h2))]

/-- Two fingerprint keys agree exactly when both `toFixed(4)` components
agree (the `"-"` separator splits unambiguously). -/
theorem fingerprintKeyChars_eq_iff (q1 p1 q2 p2 : ℚ) :
    fingerprintKeyChars q1 p1 = fingerprintKeyChars q2 p2 ↔
      (toFixed4Chars q1 = toFixed4Chars q2 ∧ toFixed4Chars p1 = toFixed4Chars p2) := by
  constructor
  · intro h
    rw [fingerprintKeyChars, fingerprintKeyChars] at h
    simp only [toFixed4Chars] at h ⊢
    by_cases h1 : q1 < 0 <;> by_cases h2 : q2 < 0
    · simp only [if_pos h1, if_pos h2, List.singleton_append, List.cons_append] at h
      injection h with _ h
      obtain ⟨hb, hp⟩ := append_sep_inj '-' _ _ _ _
        (dash_not_mem_body _) (dash_not_mem_body _) h
      rw [if_pos h1, if_pos h2, hb]
      exact ⟨rfl, hp⟩
    · exfalso
      obtain ⟨c, cs, hc, hne⟩ := toFixed4Body_head (scaled4 q2)
      simp only [if_pos h1, if_neg h2, List.singleton_append, List.nil_append, hc,
        List.cons_append] at h
      injection h with h _
      exact hne h.symm
    · exfalso
      obtain ⟨c, cs, hc, hne⟩ := toFixed4Body_head (scaled4 q1)
      simp only [if_pos h2, if_neg h1, List.singleton_append, List.nil_append, hc,
        List.cons_append] at h
      injection h with h _
      exact hne h
    · simp only [if_neg h1, if_neg h2, List.nil_append] at h
      obtain ⟨hb, hp⟩ := append_sep_inj '-' _ _ _ _
        (dash_not_mem_body _) (dash_not_mem_body _) h
      rw [if_neg h1, if_neg h2, List.nil_append, List.nil_append, hb]
      exact ⟨rfl, hp⟩
  · rintro ⟨ha, hb⟩
    rw [fingerprintKeyChars, fingerprintKeyChars, ha, hb]

/-- Two values round to the same 4-decimal value exactly when their sign
flags agree and their scaled magnitudes agree, or both magnitudes round to
zero (a negative and a non-negative value may round to the same zero). -/
theorem round4_eq_iff (q1 q2 : ℚ) :
    round4 q1 = round4 q2 ↔
      ((((q1 < 0) ↔ (q2 < 0)) ∧ scaled4 q1 = scaled4 q2) ∨
        (scaled4 q1 = 0 ∧ scaled4 q2 = 0)) := by
  rw [round4, round4]
  by_cases h1 : q1 < 0 <;> by_cases h2 : q2 < 0
  · rw [if_pos h1, if_pos h2]
    constructor
    · intro h
      have hs : scaled4 q1 = scaled4 q2 := by
        field_simp at h
        exact_mod_cast h
      exact Or.inl ⟨iff_of_true h1 h2, hs⟩
    · rintro (⟨_, hs⟩ | ⟨hs1, hs2⟩)
      · rw [hs]
      · rw [hs1, hs2]
  · rw [if_pos h1, if_neg h2]
    constructor
    · intro h
      have hz : (scaled4 q1 : ℚ) = 0 ∧ (scaled4 q2 : ℚ) = 0 := by
        field_simp at h
        constructor <;>
          [linarith [Nat.cast_nonneg (α := ℚ) (scaled4 q1),
            Nat.cast_nonneg (α := ℚ) (scaled4 q2)];
           linarith [Nat.cast_nonneg (α := ℚ) (scaled4 q1),
            Nat.cast_nonneg (α := ℚ) (scaled4 q2)]]
      exact Or.inr ⟨Nat.cast_eq_zero.1 hz.1, Nat.cast_eq_zero.1 hz.2⟩
    · rintro (⟨hiff, _⟩ | ⟨hs1, hs2⟩)
      · exact absurd (hiff.1 h1) h2
      · rw [hs1, hs2]
        norm_num
  · rw [if_neg h1, if_pos h2]
    constructor
    · intro h
      have hz : (scaled4 q1 : ℚ) = 0 ∧ (scaled4 q2 : ℚ) = 0 := by
        field_simp at h
        constructor <;>
          [linarith [Nat.cast_nonneg (α := ℚ) (scaled4 q1),
            Nat.cast_nonneg (α := ℚ) (scaled4 q2)];
           linarith [Nat.cast_nonneg (α := ℚ) (scaled4 q1),
            Nat.cast_nonneg (α := ℚ) (scaled4 q2)]]
      exact Or.inr ⟨Nat.cast_eq_zero.1 hz.1, Nat.cast_eq_zero.1 hz.2⟩
    · rintro (⟨hiff, _⟩ | ⟨hs1, hs2⟩)
      · exact absurd (hiff.2 h2) h1
      · rw [hs1, hs2]
        norm_num
  · rw [if_neg h1, if_neg h2]
    constructor
    · intro h
      have hs : scaled4 q1 = scaled4 q2 := by
        field_simp at h
        exact_mod_cast h
      exact Or.inl ⟨iff_of_false h1 h2, hs⟩
    · rintro (⟨_, hs⟩ | ⟨hs1, hs2⟩)
      · rw [hs]
      · rw [hs1, hs2]

/-- **C5 (counterexample).** `toFixed(4)` keeps the sign of a negative value
whose magnitude rounds to zero, so two line items whose quantities both
round to 0.0000 (one from below, one from above) have equal 4-decimal
roundings but different fingerprint keys (`"-0.0000-…"` vs `"0.0000-…"`). -/
theorem c5_counterexample_negative_zero :
    round4 (-(1/65536) : ℚ) = round4 ((1/65536) : ℚ) ∧
    round4 ((1 : ℚ)) = round4 ((1 : ℚ)) ∧
    fingerprintKey ⟨"a", -(1/65536), 1, 0⟩ ≠ fingerprintKey ⟨"b", 1/65536, 1, 0⟩ := by
  have habs1 : |(-(1/65536) : ℚ)| = 1/65536 := by
    rw [abs_neg]
    exact abs_of_pos (by norm_num)
  have hs1 : scaled4 (-(1/65536) : ℚ) = 0 := by
    rw [scaled4, jsRound, habs1]
    norm_num
  have hs2 : scaled4 ((1/65536) : ℚ) = 0 := by
    rw [scaled4, jsRound, abs_of_pos (by norm_num)]
    norm_num
  have hf1 : (-(1/65536) : ℚ) < 0 := by norm_num
  have hf2 : ¬((1/65536 : ℚ) < 0) := by norm_num
  refine ⟨?_, rfl, ?_⟩
  · rw [round4_eq_iff]
    exact Or.inr ⟨hs1, hs2⟩
  · intro hkey
    have hchars : fingerprintKeyChars (-(1/65536) : ℚ) 1 =
        fingerprintKeyChars (1/65536 : ℚ) 1 := by
      have := congrArg String.data hkey
      simpa [fingerprintKey] using this
    have hcomp := (fingerprintKeyChars_eq_iff _ _ _ _).1 hchars
    have hflag := ((toFixed4Chars_eq_iff _ _).1 hcomp.1).1
    exact hf2 (hflag.1 hf1)

/-- **C5 (amended).** Fingerprint determinism: if quantity and unit price
each round to the same 4-decimal value — and, for each field, not with one
value negative and the other non-negative while both round to zero (in that
corner `toFixed(4)` emits `"-0.0000"` vs `"0.0000"`) — the two fingerprint
keys are equal; conversely, if either field differs after rounding to 4
decimal places, the keys differ. -/
theorem c5_fingerprint_determinism (i1 i2 : ProductItem) :
    ((round4 i1.quantity = round4 i2.quantity ∧
        round4 i1.unitPrice = round4 i2.unitPrice ∧
        (((i1.quantity < 0) ↔ (i2.quantity < 0)) ∨ scaled4 i1.quantity ≠ 0) ∧
        (((i1.unitPrice < 0) ↔ (i2.unitPrice < 0)) ∨ scaled4 i1.unitPrice ≠ 0)) →
      fingerprintKey i1 = fingerprintKey i2) ∧
    ((round4 i1.quantity ≠ round4 i2.quantity ∨
        round4 i1.unitPrice ≠ round4 i2.unitPrice) →
      fingerprintKey i1 ≠ fingerprintKey i2) := by
  constructor
  · rintro ⟨hq, hp, hq0, hp0⟩
    have hqc : ((i1.quantity < 0) ↔ (i2.quantity < 0)) ∧
        scaled4 i1.quantity = scaled4 i2.quantity := by
      rcases (round4_eq_iff _ _).1 hq with h | ⟨hz1, hz2⟩
      · exact h
      · rcases hq0 with h | h
        · exact ⟨h, by rw [hz1, hz2]⟩
        · exact absurd hz1 h
    have hpc : ((i1.unitPrice < 0) ↔ (i2.unitPrice < 0)) ∧
        scaled4 i1.unitPrice = scaled4 i2.unitPrice := by
      rcases (round4_eq_iff _ _).1 hp with h | ⟨hz1, hz2⟩
      · exact h
      · rcases hp0 with h | h
        · exact ⟨h, by rw [hz1, hz2]⟩
        · exact absurd hz1 h
    show (⟨fingerprintKeyChars i1.quantity i1.unitPrice⟩ : String) = _
    apply congrArg String.mk
    exact (fingerprintKeyChars_eq_iff _ _ _ _).2
      ⟨(toFixed4Chars_eq_iff _ _).2 hqc, (toFixed4Chars_eq_iff _ _).2 hpc⟩
  · intro hne hkey
    have hchars : fingerprintKeyChars i1.quantity i1.unitPrice =
        fingerprintKeyChars i2.quantity i2.unitPrice := by
      have := congrArg String.data hkey
      simpa [fingerprintKey] using this
    have hcomp := (fingerprintKeyChars_eq_iff _ _ _ _).1 hchars
    have hqc := (toFixed4Chars_eq_iff _ _).1 hcomp.1
    have hpc := (toFixed4Chars_eq_iff _ _).1 hcomp.2
    rcases hne with hne | hne
    · exact hne ((round4_eq_iff _ _).2 (Or.inl hqc))
    · exact hne ((round4_eq_iff _ _).2 (Or.inl hpc))

theorem c5_fingerprint_determinism_witness :
    fingerprintKey ⟨"bolt A", 1, 2, 2⟩ = fingerprintKey ⟨"bolt B", 1, 2, 99⟩ :=
  (c5_fingerprint_determinism ⟨"bolt A", 1, 2, 2⟩ ⟨"bolt B", 1, 2, 99⟩).1
    ⟨rfl, rfl, Or.inl Iff.rfl, Or.inl Iff.rfl⟩

/-! ### Recovery parser: scan equivalence and fence selection -/

/-- Processing a character in string mode never changes the depth. -/
theorem scanStep_inString_depth (sc ec : Char) (s : ScanState) (c : Char)
    (hs : s.inString = true) : (scanStep sc ec s c).depth = s.depth := by
  simp only [scanStep, hs, if_true]
  split_ifs <;> rfl

theorem find?_map_shift {α β : Type} (f : α → β) (p : β → Bool) :
    ∀ l : List α, (l.map f).find? p = (l.find? (fun a => p (f a))).map f := by
  intro l
  induction l with
  | nil => rfl
  | cons x t ih =>
      rw [List.map_cons]
      by_cases hx : p (f x) = true
      · have h1 : List.find? p (f x :: List.map f t) = some (f x) :=
          List.find?_cons_of_pos _ hx
        have h2 : List.find? (fun a => p (f a)) (x :: t) = some x :=
          List.find?_cons_of_pos _ hx
        rw [h1, h2]
        rfl
      · have h1 : List.find? p (f x :: List.map f t) = List.find? p (List.map f t) :=
          List.find?_cons_of_neg _ hx
        have h2 : List.find? (fun a => p (f a)) (x :: t) = List.find? (fun a => p (f a)) t :=
          List.find?_cons_of_neg _ hx
        rw [h1, h2, ih]

/-- The implementation's early-exit scan agrees with the declarative "least
index whose prefix-fold depth is zero", for any start state whose depth is
non-zero when inside a string. -/
theorem scanLoop_eq_find (sc ec : Char) :
    ∀ (rest : List Char) (i : Nat) (s : ScanState),
      (s.inString = true → s.depth ≠ 0) →
      scanLoop sc ec rest i s =
        ((List.range rest.length).find? fun n =>
          (scanFold sc ec s (rest.take (n + 1))).depth == 0).map (i + ·) := by
  intro rest
  induction rest with
  | nil => intro i s _; rfl
  | cons c rest ih =>
      intro i s hinv
      have hfold0 : ∀ n, scanFold sc ec s ((c :: rest).take (n + 1 + 1)) =
          scanFold sc ec (scanStep sc ec s c) (rest.take (n + 1)) := by
        intro n
        rw [List.take_succ_cons]
        rfl
      rw [List.length_cons, List.range_succ_eq_map]
      by_cases hz : (scanStep sc ec s c).depth = 0
      · have hs : s.inString = false := by
          by_contra hs'
          have hs'' : s.inString = true := by
            cases h : s.inString
            · exact absurd h hs'
            · rfl
          exact hinv hs'' (by rw [← scanStep_inString_depth sc ec s c hs'']; exact hz)
        have hpred : ((scanFold sc ec s ((c :: rest).take (0 + 1))).depth == 0) = true := by
          simp [scanFold, hz]
        have hfind : (0 :: (List.range rest.length).map Nat.succ).find?
            (fun n => (scanFold sc ec s ((c :: rest).take (n + 1))).depth == 0) = some 0 :=
          List.find?_cons_of_pos _ hpred
        rw [hfind]
        rw [scanLoop, hs]
        simp only [Bool.false_eq_true, if_false, if_pos hz]
        rfl
      · have hpred : ¬(((scanFold sc ec s ((c :: rest).take (0 + 1))).depth == 0) = true) := by
          simp [scanFold, hz]
        have hfind : (0 :: (List.range rest.length).map Nat.succ).find?
            (fun n => (scanFold sc ec s ((c :: rest).take (n + 1))).depth == 0) =
            ((List.range rest.length).map Nat.succ).find?
              (fun n => (scanFold sc ec s ((c :: rest).take (n + 1))).depth == 0) :=
          List.find?_cons_of_neg _ hpred
        rw [hfind]
        have hcont : scanLoop sc ec (c :: rest) i s =
            scanLoop sc ec rest (i + 1) (scanStep sc ec s c) := by
          rw [scanLoop]
          cases hs : s.inString
          · simp only [Bool.false_eq_true, if_false, if_neg hz]
          · simp only [if_true]
        rw [hcont, ih (i + 1) _ (fun _ => hz)]
        rw [find?_map_shift]
        have hpeq : (fun n => (scanFold sc ec s ((c :: rest).take (Nat.succ n + 1))).depth == 0) =
            (fun n => (scanFold sc ec (scanStep sc ec s c) (rest.take (n + 1))).depth == 0) := by
          funext n
          rw [show Nat.succ n + 1 = n + 1 + 1 from rfl, hfold0 n]
        rw [hpeq]
        cases hres : (List.range rest.length).find? fun n =>
            (scanFold sc ec (scanStep sc ec s c) (rest.take (n + 1))).depth == 0 with
        | none => rfl
        | some n =>
            simp only [Option.map_some', Option.some.injEq]
            omega

/-- `findSub` returns exactly the first index where the pattern occurs. -/
theorem findSub_some_iff (pat : List Char) :
    ∀ (l : List Char) (i : Nat),
      findSub pat l = some i ↔
        (listStartsWith pat (l.drop i) = true ∧
          ∀ i', i' < i → listStartsWith pat (l.drop i') = false) := by
  intro l
  induction l with
  | nil =>
      intro i
      rw [findSub]
      by_cases hp : listStartsWith pat [] = true
      · rw [if_pos hp]
        constructor
        · intro h
          injection h with h
          exact ⟨by rw [← h]; simpa using hp, by omega⟩
        · rintro ⟨h1, h2⟩
          cases i with
          | zero => rfl
          | succ i' => exact absurd (by simpa using hp) (by simpa using h2 0 (by omega))
      · rw [if_neg hp]
        constructor
        · intro h; cases h
        · rintro ⟨h1, _⟩
          cases i with
          | zero => exact absurd (by simpa using h1) hp
          | succ i' => exact absurd (by simpa using h1) hp
  | cons c t ih =>
      intro i
      rw [findSub]
      by_cases hp : listStartsWith pat (c :: t) = true
      · rw [if_pos hp]
        constructor
        · intro h
          injection h with h
          exact ⟨by rw [← h]; simpa using hp, by omega⟩
        · rintro ⟨h1, h2⟩
          cases i with
          | zero => rfl
          | succ i' => exact absurd (by simpa using hp) (by simpa using h2 0 (by omega))
      · rw [if_neg hp]
        constructor
        · intro h
          obtain ⟨j, hj, rfl⟩ := Option.map_eq_some'.1 h
          obtain ⟨hA, hB⟩ := (ih j).1 hj
          refine ⟨by simpa using hA, ?_⟩
          intro i' hi'
          cases i' with
          | zero => simpa using hp
          | succ k => simpa using hB k (by omega)
        · rintro ⟨h1, h2⟩
          cases i with
          | zero => exact absurd (by simpa using h1) hp
          | succ j =>
              have : findSub pat t = some j := by
                rw [ih j]
                exact ⟨by simpa using h1, fun k hk => by simpa using h2 (k + 1) (by omega)⟩
              rw [this]
              rfl

/-- `findSub` fails exactly when the pattern occurs nowhere. -/
theorem findSub_none_iff (pat : List Char) :
    ∀ l : List Char,
      findSub pat l = none ↔ ∀ i, listStartsWith pat (l.drop i) = false := by
  intro l
  induction l with
  | nil =>
      rw [findSub]
      by_cases hp : listStartsWith pat [] = true
      · rw [if_pos hp]
        constructor
        · intro h; cases h
        · intro h; exact absurd (by simpa using hp) (by simpa using h 0)
      · rw [if_neg hp]
        refine ⟨fun _ i => ?_, fun _ => rfl⟩
        cases i <;> simpa using hp
  | cons c t ih =>
      rw [findSub]
      by_cases hp : listStartsWith pat (c :: t) = true
      · rw [if_pos hp]
        constructor
        · intro h; cases h
        · intro h; exact absurd (by simpa using hp) (by simpa using h 0)
      · rw [if_neg hp]
        constructor
        · intro h i
          have ht : findSub pat t = none := by
            cases hft : findSub pat t with
            | none => rfl
            | some j => rw [hft] at h; cases h
          cases i with
          | zero => simpa using hp
          | succ k => simpa using (ih.1 ht) k
        · intro h
          have ht : findSub pat t = none := by
            rw [ih]
            intro k
            simpa using h (k + 1)
          rw [ht]
          rfl

/-- **C3.** Steps 2-4 of the recovery parser: with `startIndex` selected as
the earlier of the first `{` and the first `[` in the working text, the scan
— which tracks the nesting depth of the corresponding open/close pair while
treating double-quoted strings as opaque (a backslash escaping the next
character, including an embedded quote) — ends the extract at the first
index where the depth returns to zero, even if trailing garbage follows;
when no balanced end exists, the extract falls back to the last occurrence
of the expected closing character strictly after `startIndex`, and failing
that uses the remainder of the text from `startIndex` onward.  The
trailing-comma cleanup then runs on the extract. -/
theorem c3_recovery_extract_behavior (t : List Char) (startIndex : Nat)
    (hstart : chooseStart (indexOfChar '{' t) (indexOfChar '[' t) = some startIndex) :
    ∀ startChar endChar, startChar = (t.drop startIndex).headD ' ' →
      endChar = (if startChar = '{' then '}' else ']') →
      ((∀ e, specEnd startChar endChar (t.drop startIndex) = some e →
          extractPhase t = stripCommas ((t.take (startIndex + e + 1)).drop startIndex)) ∧
        (specEnd startChar endChar (t.drop startIndex) = none →
          ((∀ j, lastIndexOfChar endChar t = some j → startIndex < j →
              extractPhase t = stripCommas ((t.take (j + 1)).drop startIndex)) ∧
            (∀ j, lastIndexOfChar endChar t = some j → ¬startIndex < j →
              extractPhase t = stripCommas (t.drop startIndex)) ∧
            (lastIndexOfChar endChar t = none →
              extractPhase t = stripCommas (t.drop startIndex))))) := by
  intro sc ec hsc hec
  subst hsc hec
  have hloop : scanLoop ((t.drop startIndex).headD ' ')
      (if (t.drop startIndex).headD ' ' = '{' then '}' else ']')
      (t.drop startIndex) startIndex initScan =
      (specEnd ((t.drop startIndex).headD ' ')
        (if (t.drop startIndex).headD ' ' = '{' then '}' else ']')
        (t.drop startIndex)).map (startIndex + ·) := by
    rw [specEnd]
    exact scanLoop_eq_find _ _ _ _ _ (fun h => by simp [initScan] at h)
  constructor
  · intro e he
    rw [he, Option.map_some'] at hloop
    simp only [extractPhase, hstart, hloop]
  · intro hnone
    rw [hnone, Option.map_none'] at hloop
    refine ⟨?_, ?_, ?_⟩
    · intro j hj hlt
      simp only [extractPhase, hstart, hloop, hj, if_pos hlt]
    · intro j hj hlt
      simp only [extractPhase, hstart, hloop, hj, if_neg hlt]
    · intro hn
      simp only [extractPhase, hstart, hloop, hn]

theorem c3_recovery_extract_behavior_witness :
    extractPhase "x{a}y".data = stripCommas (("x{a}y".data.take (1 + 2 + 1)).drop 1) ∧
    stripCommas (("x{a}y".data.take (1 + 2 + 1)).drop 1) = "{a}".data :=
  ⟨((c3_recovery_extract_behavior "x{a}y".data 1 (by decide) '{' '}'
      (by decide) (by decide)).1 2 (by decide)),
    by decide⟩

/-- **C10 (counterexample).** A text with two ```json-fenced blocks whose
first block holds only whitespace: the regex matches the first block
(`fenceGroup` returns its trimmed content, the empty string), but
`if (match && match[1])` is falsy on the empty capture, so the working text
stays the whole text — it is not replaced by the first block's content, and
the second block's content is ignored too. -/
theorem c10_counterexample_empty_first_block :
    fenceGroup "a```json   ``` ```json \x7b2\x7d ```".data = some [] ∧
    fenceStep "a```json   ``` ```json \x7b2\x7d ```".data =
      "a```json   ``` ```json \x7b2\x7d ```".data :=
  ⟨by decide, by decide⟩

/-- **C10 (amended).** The fence step keeps only the first ```json block:
when the first occurrence of `"```json"` is at index `i` and the first
occurrence of `"```"` after its header is at relative offset `j`, the
working text is replaced by the block's whitespace-trimmed content provided
that content is non-empty — later fenced blocks are ignored; when that
trimmed content is empty, the capture is falsy and the whole trimmed text
remains the working text; and when the opener has no later `"```"` at all,
the regex cannot match (any later `"```json"` would itself contain
`"```"`), so the whole trimmed text remains the working text. -/
theorem c10_fence_block_selection (t : List Char) :
    (∀ i j, listStartsWith "```json".data (t.drop i) = true →
        (∀ i', i' < i → listStartsWith "```json".data (t.drop i') = false) →
        listStartsWith "```".data ((t.drop (i + 7)).drop j) = true →
        (∀ j', j' < j → listStartsWith "```".data ((t.drop (i + 7)).drop j') = false) →
        jsTrim ((t.drop (i + 7)).take j) ≠ [] →
        fenceStep t = jsTrim ((t.drop (i + 7)).take j)) ∧
    (∀ i j, listStartsWith "```json".data (t.drop i) = true →
        (∀ i', i' < i → listStartsWith "```json".data (t.drop i') = false) →
        listStartsWith "```".data ((t.drop (i + 7)).drop j) = true →
        (∀ j', j' < j → listStartsWith "```".data ((t.drop (i + 7)).drop j') = false) →
        jsTrim ((t.drop (i + 7)).take j) = [] →
        fenceStep t = t) ∧
    (∀ i, listStartsWith "```json".data (t.drop i) = true →
        (∀ i', i' < i → listStartsWith "```json".data (t.drop i') = false) →
        (∀ k, listStartsWith "```".data ((t.drop (i + 7)).drop k) = false) →
        fenceStep t = t) := by
  refine ⟨?_, ?_, ?_⟩
  · intro i j h1 h2 h3 h4 h5
    have hfi : findSub "```json".data t = some i := (findSub_some_iff _ _ _).2 ⟨h1, h2⟩
    have hfj : findSub "```".data (t.drop (i + 7)) = some j :=
      (findSub_some_iff _ _ _).2 ⟨h3, h4⟩
    simp only [fenceStep, fenceGroup, hfi, hfj]
    rw [if_neg]
    simpa using h5
  · intro i j h1 h2 h3 h4 h5
    have hfi : findSub "```json".data t = some i := (findSub_some_iff _ _ _).2 ⟨h1, h2⟩
    have hfj : findSub "```".data (t.drop (i + 7)) = some j :=
      (findSub_some_iff _ _ _).2 ⟨h3, h4⟩
    simp [fenceStep, fenceGroup, hfi, hfj, h5]
  · intro i h1 h2 h3
    have hfi : findSub "```json".data t = some i := (findSub_some_iff _ _ _).2 ⟨h1, h2⟩
    have hfj : findSub "```".data (t.drop (i + 7)) = none := (findSub_none_iff _ _).2 h3
    simp only [fenceStep, fenceGroup, hfi, hfj]

theorem c10_fence_block_selection_witness :
    fenceStep "a```json {1} ``` b ```json {2} ```".data = "{1}".data ∧
    fenceStep "a```json   ``` ```json \x7b2\x7d ```".data =
      "a```json   ``` ```json \x7b2\x7d ```".data ∧
    fenceStep "```json \x7bunclosed".data = "```json \x7bunclosed".data := by
  refine ⟨?_, ?_, ?_⟩
  · have h := (c10_fence_block_selection "a```json {1} ``` b ```json {2} ```".data).1
      1 5 (by decide) (by decide) (by decide) (by decide) (by decide)
    rw [h]
    decide
  · exact (c10_fence_block_selection "a```json   ``` ```json \x7b2\x7d ```".data).2.1
      1 3 (by decide) (by decide) (by decide) (by decide) (by decide)
  · exact (c10_fence_block_selection "```json \x7bunclosed".data).2.2 0 (by decide)
      (by decide) ((findSub_none_iff _ _).1 (by decide))

/-! ### Scan-neutrality of valid JSON fragments -/

theorem scanStep_out (op cl c : Char) (d : Int) (hc : c ≠ '"') :
    scanStep op cl ⟨false, false, d⟩ c =
      ⟨false, false, d + (if c = op then 1 else if c = cl then -1 else 0)⟩ := by
  simp only [scanStep, Bool.false_eq_true, if_false]
  rw [if_neg hc]
  by_cases h1 : c = op
  · rw [if_pos h1, if_pos h1]
  · rw [if_neg h1, if_neg h1]
    by_cases h2 : c = cl
    · rw [if_pos h2, if_pos h2]
      rfl
    · rw [if_neg h2, if_neg h2]
      simp

theorem Seg.nil (op cl : Char) : Seg op cl 0 [] := by
  intro d
  refine ⟨by simp [scanFold], ?_⟩
  intro n hn
  simp at hn

theorem Seg.single (op cl c : Char) (hc : c ≠ '"') :
    Seg op cl (if c = op then 1 else if c = cl then -1 else 0) [c] := by
  intro d
  constructor
  · show scanStep op cl ⟨false, false, d⟩ c = _
    exact scanStep_out op cl c d hc
  · intro n hn
    simp only [List.length_singleton] at hn
    interval_cases n
    simp [scanFold]

theorem Seg.single_zero (op cl c : Char) (h1 : c ≠ '"') (h2 : c ≠ op) (h3 : c ≠ cl) :
    Seg op cl 0 [c] := by
  have h := Seg.single op cl c h1
  rwa [if_neg h2, if_neg h3] at h

theorem Seg.append {op cl : Char} {δ1 δ2 : Int} {a b : List Char}
    (h1 : Seg op cl δ1 a) (h2 : Seg op cl δ2 b) (hδ : δ1 ≥ 0) :
    Seg op cl (δ1 + δ2) (a ++ b) := by
  intro d
  obtain ⟨ha1, ha2⟩ := h1 d
  obtain ⟨hb1, hb2⟩ := h2 (d + δ1)
  constructor
  · show scanFold op cl ⟨false, false, d⟩ (a ++ b) = _
    rw [scanFold, List.foldl_append]
    show scanFold op cl (scanFold op cl ⟨false, false, d⟩ a) b = _
    rw [ha1, hb1]
    have : d + δ1 + δ2 = d + (δ1 + δ2) := by omega
    rw [this]
  · intro n hn
    rw [List.take_append_eq_append_take, scanFold, List.foldl_append]
    by_cases hcase : n < a.length
    · have hb0 : n - a.length = 0 := by omega
      rw [hb0, List.take_zero, List.foldl_nil]
      exact ha2 n hcase
    · have hA : a.take n = a := List.take_of_length_le (by omega)
      rw [hA]
      show (scanFold op cl (scanFold op cl ⟨false, false, d⟩ a) (b.take (n - a.length))).depth ≥ d
      rw [ha1]
      have hblt : n - a.length < b.length := by
        rw [List.length_append] at hn
        omega
      have := hb2 (n - a.length) hblt
      omega

theorem jsWs_not_special (op cl c : Char)
    (hpair : (op = '{' ∧ cl = '}') ∨ (op = '[' ∧ cl = ']'))
    (h : jsWs c = true) : c ≠ '"' ∧ c ≠ op ∧ c ≠ cl := by
  refine ⟨?_, ?_, ?_⟩
  · intro he; rw [he] at h; exact absurd h (by decide)
  · intro he
    rcases hpair with ⟨rfl, _⟩ | ⟨rfl, _⟩ <;> rw [he] at h <;> exact absurd h (by decide)
  · intro he
    rcases hpair with ⟨_, rfl⟩ | ⟨_, rfl⟩ <;> rw [he] at h <;> exact absurd h (by decide)

theorem atomChar_not_special (op cl c : Char)
    (hpair : (op = '{' ∧ cl = '}') ∨ (op = '[' ∧ cl = ']'))
    (h : atomChar c = true) : c ≠ '"' ∧ c ≠ op ∧ c ≠ cl := by
  refine ⟨?_, ?_, ?_⟩
  · intro he; rw [he] at h; exact absurd h (by decide)
  · intro he
    rcases hpair with ⟨rfl, _⟩ | ⟨rfl, _⟩ <;> rw [he] at h <;> exact absurd h (by decide)
  · intro he
    rcases hpair with ⟨_, rfl⟩ | ⟨_, rfl⟩ <;> rw [he] at h <;> exact absurd h (by decide)

theorem Seg.run (op cl : Char)
    (hpair : (op = '{' ∧ cl = '}') ∨ (op = '[' ∧ cl = ']'))
    (p : Char → Bool) (hp : ∀ c, p c = true → c ≠ '"' ∧ c ≠ op ∧ c ≠ cl) :
    ∀ l : List Char, (∀ c ∈ l, p c = true) → Seg op cl 0 l := by
  intro l
  induction l with
  | nil => intro _; exact Seg.nil op cl
  | cons c t ih =>
      intro h
      have hc := hp c (h c (List.mem_cons_self _ _))
      have h1 := Seg.single_zero op cl c hc.1 hc.2.1 hc.2.2
      have h2 := ih fun c' hc' => h c' (List.mem_cons_of_mem _ hc')
      have := Seg.append h1 h2 (by omega)
      simpa using this

theorem Seg.wsRun (op cl : Char)
    (hpair : (op = '{' ∧ cl = '}') ∨ (op = '[' ∧ cl = ']')) (l : List Char)
    (h : ∀ c ∈ l, jsWs c = true) : Seg op cl 0 l :=
  Seg.run op cl hpair jsWs (fun c hc => jsWs_not_special op cl c hpair hc) l h

theorem Seg.atomRun (op cl : Char)
    (hpair : (op = '{' ∧ cl = '}') ∨ (op = '[' ∧ cl = ']')) (l : List Char)
    (h : ∀ c ∈ l, atomChar c = true) : Seg op cl 0 l :=
  Seg.run op cl hpair atomChar (fun c hc => atomChar_not_special op cl c hpair hc) l h

/-- Scanning a parsed string body from inside-string mode: the state exits
string mode at the closing quote and the depth never moves. -/
theorem pStrBody_scan (op cl : Char) :
    ∀ (fuel : Nat) (l r : List Char), l.length ≤ fuel → pStrBody l = some r →
      ∃ c, l = c ++ r ∧
        ∀ d : Int,
          scanFold op cl ⟨true, false, d⟩ c = ⟨false, false, d⟩ ∧
          ∀ n, (scanFold op cl ⟨true, false, d⟩ (c.take n)).depth = d := by
  intro fuel
  induction fuel with
  | zero =>
      intro l r hl hp
      have : l = [] := by
        cases l with
        | nil => rfl
        | cons c t => simp at hl
      subst this
      cases hp
  | succ f ih =>
      intro l r hl hp
      cases l with
      | nil => cases hp
      | cons c t =>
          rw [pStrBody.eq_def] at hp
          simp only [] at hp
          by_cases hq : c = '"'
          · rw [if_pos hq] at hp
            injection hp with hp
            subst hp hq
            refine ⟨['"'], rfl, ?_⟩
            intro d
            constructor
            · simp [scanFold, List.foldl_cons, scanStep]
            · intro n
              cases n with
              | zero => simp [scanFold]
              | succ m => simp [scanFold, List.take_succ_cons, scanStep]
          · rw [if_neg hq] at hp
            by_cases hb : c = '\\'
            · rw [if_pos hb] at hp
              cases t with
              | nil => cases hp
              | cons c2 t2 =>
                  obtain ⟨cc, hcc, hseg⟩ := ih t2 r
                    (by simp only [List.length_cons] at hl; omega) hp
                  refine ⟨c :: c2 :: cc, by simp [hcc], ?_⟩
                  intro d
                  obtain ⟨hs1, hs2⟩ := hseg d
                  have hstep1 : scanStep op cl ⟨true, false, d⟩ c = ⟨true, true, d⟩ := by
                    subst hb
                    simp [scanStep]
                  have hstep2 : scanStep op cl ⟨true, true, d⟩ c2 = ⟨true, false, d⟩ := by
                    simp [scanStep]
                  constructor
                  · show scanFold op cl ⟨true, false, d⟩ (c :: c2 :: cc) = _
                    rw [scanFold, List.foldl_cons, List.foldl_cons]
                    show scanFold op cl (scanStep op cl (scanStep op cl ⟨true, false, d⟩ c) c2) cc = _
                    rw [hstep1, hstep2, hs1]
                  · intro n
                    cases n with
                    | zero => simp [scanFold]
                    | succ m =>
                        cases m with
                        | zero =>
                            rw [List.take_succ_cons, List.take_zero]
                            show (scanFold op cl ⟨true, false, d⟩ [c]).depth = d
                            show (scanStep op cl ⟨true, false, d⟩ c).depth = d
                            rw [hstep1]
                        | succ m2 =>
                            rw [List.take_succ_cons, List.take_succ_cons]
                            show (scanFold op cl ⟨true, false, d⟩ (c :: c2 :: cc.take m2)).depth = d
                            rw [scanFold, List.foldl_cons, List.foldl_cons]
                            show (scanFold op cl (scanStep op cl (scanStep op cl ⟨true, false, d⟩ c) c2) (cc.take m2)).depth = d
                            rw [hstep1, hstep2]
                            exact hs2 m2
            · rw [if_neg hb] at hp
              obtain ⟨cc, hcc, hseg⟩ := ih t r
                (by simp only [List.length_cons] at hl; omega) hp
              refine ⟨c :: cc, by simp [hcc], ?_⟩
              intro d
              obtain ⟨hs1, hs2⟩ := hseg d
              have hstep1 : scanStep op cl ⟨true, false, d⟩ c = ⟨true, false, d⟩ := by
                simp [scanStep, hb, hq]
              constructor
              · show scanFold op cl ⟨true, false, d⟩ (c :: cc) = _
                rw [scanFold, List.foldl_cons]
                show scanFold op cl (scanStep op cl ⟨true, false, d⟩ c) cc = _
                rw [hstep1, hs1]
              · intro n
                cases n with
                | zero => simp [scanFold]
                | succ m =>
                    rw [List.take_succ_cons]
                    show (scanFold op cl ⟨true, false, d⟩ (c :: cc.take m)).depth = d
                    rw [scanFold, List.foldl_cons]
                    show (scanFold op cl (scanStep op cl ⟨true, false, d⟩ c) (cc.take m)).depth = d
                    rw [hstep1]
                    exact hs2 m

/-- A full string literal (opening quote included) is scan-neutral. -/
theorem Seg.stringLit (op cl : Char) (t r : List Char) (hp : pStrBody t = some r) :
    ∃ body, t = body ++ r ∧ Seg op cl 0 ('"' :: body) := by
  obtain ⟨c, hc, hseg⟩ := pStrBody_scan op cl t.length t r le_rfl hp
  refine ⟨c, hc, ?_⟩
  intro d
  obtain ⟨hs1, hs2⟩ := hseg d
  have hstep : scanStep op cl ⟨false, false, d⟩ '"' = ⟨true, false, d⟩ := by
    simp [scanStep]
  constructor
  · show scanFold op cl ⟨false, false, d⟩ ('"' :: c) = _
    rw [scanFold, List.foldl_cons]
    show scanFold op cl (scanStep op cl ⟨false, false, d⟩ '"') c = _
    rw [hstep, hs1]
    simp
  · intro n hn
    cases n with
    | zero => simp [scanFold]
    | succ m =>
        rw [List.take_succ_cons]
        show (scanFold op cl ⟨false, false, d⟩ ('"' :: c.take m)).depth ≥ d
        rw [scanFold, List.foldl_cons]
        show (scanFold op cl (scanStep op cl ⟨false, false, d⟩ '"') (c.take m)).depth ≥ d
        rw [hstep, hs2 m]

theorem Seg.append0 {op cl : Char} {δ : Int} {a b : List Char}
    (h1 : Seg op cl 0 a) (h2 : Seg op cl δ b) : Seg op cl δ (a ++ b) := by
  have h := Seg.append h1 h2 le_rfl
  rwa [zero_add] at h

theorem seg_open_brace (op cl : Char)
    (hpair : (op = '{' ∧ cl = '}') ∨ (op = '[' ∧ cl = ']')) :
    Seg op cl (-(if op = '{' then (-1 : Int) else 0)) ['{'] := by
  rcases hpair with ⟨rfl, rfl⟩ | ⟨rfl, rfl⟩
  · have h := Seg.single '{' '}' '{' (by decide)
    rw [if_pos rfl] at h
    simpa using h
  · have h := Seg.single_zero '[' ']' '{' (by decide) (by decide) (by decide)
    simpa using h

theorem seg_close_brace (op cl : Char)
    (hpair : (op = '{' ∧ cl = '}') ∨ (op = '[' ∧ cl = ']')) :
    Seg op cl (if op = '{' then (-1 : Int) else 0) ['}'] := by
  rcases hpair with ⟨rfl, rfl⟩ | ⟨rfl, rfl⟩
  · have h := Seg.single '{' '}' '}' (by decide)
    rw [if_neg (by decide), if_pos rfl] at h
    simpa using h
  · have h := Seg.single_zero '[' ']' '}' (by decide) (by decide) (by decide)
    simpa using h

theorem seg_open_brack (op cl : Char)
    (hpair : (op = '{' ∧ cl = '}') ∨ (op = '[' ∧ cl = ']')) :
    Seg op cl (-(if op = '{' then (0 : Int) else -1)) ['['] := by
  rcases hpair with ⟨rfl, rfl⟩ | ⟨rfl, rfl⟩
  · have h := Seg.single_zero '{' '}' '[' (by decide) (by decide) (by decide)
    simpa using h
  · have h := Seg.single '[' ']' '[' (by decide)
    rw [if_pos rfl] at h
    simpa using h

theorem seg_close_brack (op cl : Char)
    (hpair : (op = '{' ∧ cl = '}') ∨ (op = '[' ∧ cl = ']')) :
    Seg op cl (if op = '{' then (0 : Int) else -1) [']'] := by
  rcases hpair with ⟨rfl, rfl⟩ | ⟨rfl, rfl⟩
  · have h := Seg.single_zero '{' '}' ']' (by decide) (by decide) (by decide)
    simpa using h
  · have h := Seg.single '[' ']' ']' (by decide)
    rw [if_neg (by decide), if_pos rfl] at h
    simpa using h

theorem seg_colon (op cl : Char)
    (hpair : (op = '{' ∧ cl = '}') ∨ (op = '[' ∧ cl = ']')) :
    Seg op cl 0 [':'] := by
  rcases hpair with ⟨rfl, rfl⟩ | ⟨rfl, rfl⟩ <;>
    exact Seg.single_zero _ _ ':' (by decide) (by decide) (by decide)

theorem seg_comma (op cl : Char)
    (hpair : (op = '{' ∧ cl = '}') ∨ (op = '[' ∧ cl = ']')) :
    Seg op cl 0 [','] := by
  rcases hpair with ⟨rfl, rfl⟩ | ⟨rfl, rfl⟩ <;>
    exact Seg.single_zero _ _ ',' (by decide) (by decide) (by decide)

theorem seg_takeWhileWs (op cl : Char)
    (hpair : (op = '{' ∧ cl = '}') ∨ (op = '[' ∧ cl = ']')) (l : List Char) :
    Seg op cl 0 (l.takeWhile jsWs) :=
  Seg.wsRun op cl hpair _ (fun _ hc => List.mem_takeWhile_imp hc)

theorem skipWs_eq (l : List Char) : l = l.takeWhile jsWs ++ skipWs l := by
  rw [skipWs, List.takeWhile_append_dropWhile]

/-- Every fragment consumed by the JSON checker is scan-neutral: a value
contributes net depth 0, and the object/array suffix forms contribute the
closing decrement exactly once — with all intermediate depths at or above
the entry depth. -/
theorem parsers_seg (op cl : Char)
    (hpair : (op = '{' ∧ cl = '}') ∨ (op = '[' ∧ cl = ']')) :
    ∀ fuel : Nat,
      (∀ l r, pVal fuel l = some r →
          ∃ c, l = c ++ r ∧ Seg op cl 0 c) ∧
      (∀ l r, pObjRest fuel l = some r →
          ∃ c, l = c ++ r ∧ Seg op cl (if op = '{' then -1 else 0) c) ∧
      (∀ l r, pMember fuel l = some r →
          ∃ c, l = c ++ r ∧ Seg op cl (if op = '{' then -1 else 0) c) ∧
      (∀ l r, pObjTail fuel l = some r →
          ∃ c, l = c ++ r ∧ Seg op cl (if op = '{' then -1 else 0) c) ∧
      (∀ l r, pArrRest fuel l = some r →
          ∃ c, l = c ++ r ∧ Seg op cl (if op = '{' then 0 else -1) c) ∧
      (∀ l r, pArrTail fuel l = some r →
          ∃ c, l = c ++ r ∧ Seg op cl (if op = '{' then 0 else -1) c) := by
  intro fuel
  induction fuel with
  | zero =>
      refine ⟨?_, ?_, ?_, ?_, ?_, ?_⟩ <;> intro l r h <;>
        first
          | (simp [pVal] at h)
          | (simp [pObjRest] at h)
          | (simp [pMember] at h)
          | (simp [pObjTail] at h)
          | (simp [pArrRest] at h)
          | (simp [pArrTail] at h)
  | succ f ih =>
      obtain ⟨ihV, ihO, ihM, ihT, ihA, ihAT⟩ := ih
      refine ⟨?_, ?_, ?_, ?_, ?_, ?_⟩
      -- pVal
      · intro l r h
        cases l with
        | nil => simp [pVal] at h
        | cons c t =>
            simp only [pVal] at h
            by_cases hq : c = '"'
            · rw [if_pos hq] at h
              obtain ⟨body, hbody, hseg⟩ := Seg.stringLit op cl t r h
              refine ⟨'"' :: body, ?_, hseg⟩
              rw [hq, hbody]
              rfl
            · rw [if_neg hq] at h
              by_cases hbr : c = '{'
              · rw [if_pos hbr] at h
                obtain ⟨cO, hO, hsegO⟩ := ihO _ _ h
                refine ⟨'{' :: (t.takeWhile jsWs ++ cO), ?_, ?_⟩
                · rw [hbr]
                  have ht := skipWs_eq t
                  rw [hO] at ht
                  conv_lhs => rw [ht]
                  simp
                · have hsA := Seg.append (seg_open_brace op cl hpair)
                    (seg_takeWhileWs op cl hpair t)
                    (by by_cases h' : op = '{' <;> simp [h'])
                  have hsB := Seg.append hsA hsegO
                    (by by_cases h' : op = '{' <;> simp [h'])
                  have he : -(if op = '{' then (-1 : Int) else 0) + 0 +
                      (if op = '{' then (-1 : Int) else 0) = 0 := by omega
                  rw [he] at hsB
                  have hl : (['{'] ++ t.takeWhile jsWs) ++ cO =
                      '{' :: (t.takeWhile jsWs ++ cO) := by simp
                  rwa [hl] at hsB
              · rw [if_neg hbr] at h
                by_cases hbk : c = '['
                · rw [if_pos hbk] at h
                  obtain ⟨cA, hA, hsegA⟩ := ihA _ _ h
                  refine ⟨'[' :: (t.takeWhile jsWs ++ cA), ?_, ?_⟩
                  · rw [hbk]
                    have ht := skipWs_eq t
                    rw [hA] at ht
                    conv_lhs => rw [ht]
                    simp
                  · have hsA := Seg.append (seg_open_brack op cl hpair)
                      (seg_takeWhileWs op cl hpair t)
                      (by by_cases h' : op = '{' <;> simp [h'])
                    have hsB := Seg.append hsA hsegA
                      (by by_cases h' : op = '{' <;> simp [h'])
                    have he : -(if op = '{' then (0 : Int) else -1) + 0 +
                        (if op = '{' then (0 : Int) else -1) = 0 := by omega
                    rw [he] at hsB
                    have hl : (['['] ++ t.takeWhile jsWs) ++ cA =
                        '[' :: (t.takeWhile jsWs ++ cA) := by simp
                    rwa [hl] at hsB
                · rw [if_neg hbk] at h
                  by_cases ha : atomChar c = true
                  · rw [if_pos ha] at h
                    injection h with h
                    refine ⟨c :: t.takeWhile atomChar, ?_, ?_⟩
                    · rw [← h]
                      simp [List.takeWhile_append_dropWhile]
                    · apply Seg.atomRun op cl hpair
                      intro c' hc'
                      rcases List.mem_cons.1 hc' with h' | h'
                      · rw [h']; exact ha
                      · exact List.mem_takeWhile_imp h'
                  · rw [if_neg ha] at h
                    cases h
      -- pObjRest
      · intro l r h
        cases l with
        | nil => simp [pObjRest] at h
        | cons c t =>
            simp only [pObjRest] at h
            by_cases hc : c = '}'
            · rw [if_pos hc] at h
              injection h with h
              refine ⟨['}'], by rw [hc, h]; rfl, seg_close_brace op cl hpair⟩
            · rw [if_neg hc] at h
              exact ihM _ _ h
      -- pMember
      · intro l r h
        cases l with
        | nil => simp [pMember] at h
        | cons c t =>
            simp only [pMember] at h
            by_cases hq : c = '"'
            · rw [if_pos hq] at h
              cases hs : pStrBody t with
              | none => simp [hs] at h
              | some r1 =>
                  simp only [hs] at h
                  cases hsw : skipWs r1 with
                  | nil => simp [hsw] at h
                  | cons c2 r2 =>
                      simp only [hsw] at h
                      by_cases hcolon : c2 = ':'
                      · rw [if_pos hcolon] at h
                        cases hv : pVal f (skipWs r2) with
                        | none => simp [hv] at h
                        | some r3 =>
                            simp only [hv] at h
                            obtain ⟨body, hbody, hsegStr⟩ := Seg.stringLit op cl t r1 hs
                            obtain ⟨cV, hV, hsegV⟩ := ihV _ _ hv
                            obtain ⟨cT, hT, hsegT⟩ := ihT _ _ h
                            refine ⟨('"' :: body) ++ (r1.takeWhile jsWs ++ ([':'] ++
                              (r2.takeWhile jsWs ++ (cV ++ (r3.takeWhile jsWs ++ cT))))),
                              ?_, ?_⟩
                            · have h1 : r1 = r1.takeWhile jsWs ++ (':' :: r2) := by
                                rw [show (':' : Char) :: r2 = c2 :: r2 by rw [hcolon], ← hsw]
                                exact skipWs_eq r1
                              have h2 : r2 = r2.takeWhile jsWs ++ (cV ++ r3) := by
                                rw [← hV]; exact skipWs_eq r2
                              have h3 : r3 = r3.takeWhile jsWs ++ (cT ++ r) := by
                                rw [← hT]; exact skipWs_eq r3
                              rw [hq]
                              conv_lhs => rw [hbody, h1, h2, h3]
                              simp
                            · exact Seg.append0 hsegStr (Seg.append0
                                (seg_takeWhileWs op cl hpair r1) (Seg.append0
                                (seg_colon op cl hpair) (Seg.append0
                                (seg_takeWhileWs op cl hpair r2) (Seg.append0 hsegV
                                (Seg.append0 (seg_takeWhileWs op cl hpair r3) hsegT)))))
                      · rw [if_neg hcolon] at h
                        cases h
            · rw [if_neg hq] at h
              cases h
      -- pObjTail
      · intro l r h
        cases l with
        | nil => simp [pObjTail] at h
        | cons c t =>
            simp only [pObjTail] at h
            by_cases hc : c = '}'
            · rw [if_pos hc] at h
              injection h with h
              refine ⟨['}'], by rw [hc, h]; rfl, seg_close_brace op cl hpair⟩
            · rw [if_neg hc] at h
              by_cases hcm : c = ','
              · rw [if_pos hcm] at h
                obtain ⟨cM, hM, hsegM⟩ := ihM _ _ h
                refine ⟨',' :: (t.takeWhile jsWs ++ cM), ?_, ?_⟩
                · rw [hcm]
                  have ht := skipWs_eq t
                  rw [hM] at ht
                  conv_lhs => rw [ht]
                  simp
                · have hs := Seg.append0 (seg_comma op cl hpair)
                    (Seg.append0 (seg_takeWhileWs op cl hpair t) hsegM)
                  simpa using hs
              · rw [if_neg hcm] at h
                cases h
      -- pArrRest
      · intro l r h
        cases l with
        | nil => simp [pArrRest] at h
        | cons c t =>
            simp only [pArrRest] at h
            by_cases hc : c = ']'
            · rw [if_pos hc] at h
              injection h with h
              refine ⟨[']'], by rw [hc, h]; rfl, seg_close_brack op cl hpair⟩
            · rw [if_neg hc] at h
              cases hv : pVal f (c :: t) with
              | none => simp [hv] at h
              | some r1 =>
                  simp only [hv] at h
                  obtain ⟨cV, hV, hsegV⟩ := ihV _ _ hv
                  obtain ⟨cT, hT, hsegT⟩ := ihAT _ _ h
                  refine ⟨cV ++ (r1.takeWhile jsWs ++ cT), ?_, ?_⟩
                  · have h1 : r1 = r1.takeWhile jsWs ++ (cT ++ r) := by
                      rw [← hT]; exact skipWs_eq r1
                    conv_lhs => rw [hV, h1]
                    simp
                  · exact Seg.append0 hsegV
                      (Seg.append0 (seg_takeWhileWs op cl hpair r1) hsegT)
      -- pArrTail
      · intro l r h
        cases l with
        | nil => simp [pArrTail] at h
        | cons c t =>
            simp only [pArrTail] at h
            by_cases hc : c = ']'
            · rw [if_pos hc] at h
              injection h with h
              refine ⟨[']'], by rw [hc, h]; rfl, seg_close_brack op cl hpair⟩
            · rw [if_neg hc] at h
              by_cases hcm : c = ','
              · rw [if_pos hcm] at h
                cases hv : pVal f (skipWs t) with
                | none => simp [hv] at h
                | some r1 =>
                    simp only [hv] at h
                    obtain ⟨cV, hV, hsegV⟩ := ihV _ _ hv
                    obtain ⟨cT, hT, hsegT⟩ := ihAT _ _ h
                    refine ⟨',' :: (t.takeWhile jsWs ++ (cV ++ (r1.takeWhile jsWs ++ cT))),
                      ?_, ?_⟩
                    · have h1 : t = t.takeWhile jsWs ++ (cV ++ r1) := by
                        rw [← hV]; exact skipWs_eq t
                      have h2 : r1 = r1.takeWhile jsWs ++ (cT ++ r) := by
                        rw [← hT]; exact skipWs_eq r1
                      rw [hcm]
                      conv_lhs => rw [h1, h2]
                      simp
                    · have hs := Seg.append0 (seg_comma op cl hpair)
                        (Seg.append0 (seg_takeWhileWs op cl hpair t)
                          (Seg.append0 hsegV
                            (Seg.append0 (seg_takeWhileWs op cl hpair r1) hsegT)))
                      simpa using hs
              · rw [if_neg hcm] at h
                cases h

/-- `find?` skips over a block containing no hit. -/
theorem find?_append_none {α : Type} (p : α → Bool) (l1 l2 : List α)
    (h : l1.find? p = none) : (l1 ++ l2).find? p = l2.find? p := by
  induction l1 with
  | nil => simp
  | cons x t ih =>
      have hall := List.find?_eq_none.mp h
      have hx : ¬ p x = true := by
        have := hall x (List.mem_cons_self x t)
        simpa using this
      have ht : t.find? p = none := by
        rw [List.find?_eq_none]
        intro y hy
        exact hall y (List.mem_cons_of_mem _ hy)
      rw [List.cons_append]
      have h1 : List.find? p (x :: (t ++ l2)) = List.find? p (t ++ l2) :=
        List.find?_cons_of_neg _ hx
      rw [h1]
      exact ih ht

/-- `find?` over `range L` lands on the final index when the predicate fails
everywhere before it and holds there. -/
theorem range_find?_last (p : Nat → Bool) (L : Nat) (hL : 0 < L)
    (h1 : ∀ n, n + 1 < L → p n = false) (h2 : p (L - 1) = true) :
    (List.range L).find? p = some (L - 1) := by
  obtain ⟨M, rfl⟩ : ∃ M, L = M + 1 := ⟨L - 1, by omega⟩
  simp only [Nat.add_sub_cancel] at h2 ⊢
  rw [List.range_succ]
  have hnone : (List.range M).find? p = none := by
    rw [List.find?_eq_none]
    intro x hx
    rw [List.mem_range] at hx
    rw [h1 x (by omega)]
    simp
  rw [find?_append_none p _ _ hnone]
  exact List.find?_cons_of_pos _ h2

/-- `indexOf` finds a matching head at index 0. -/
theorem indexOfChar_cons_self (c : Char) (t : List Char) :
    indexOfChar c (c :: t) = some 0 := by
  simp [indexOfChar]

/-- When the first `{` is at index 0, the start index is 0. -/
theorem chooseStart_brace_zero (fk : Option Nat) :
    chooseStart (some 0) fk = some 0 := by
  cases fk <;> simp [chooseStart]

/-- When the first `[` is at index 0, the start index is 0. -/
theorem chooseStart_bracket_zero (fb : Option Nat) :
    chooseStart fb (some 0) = some 0 := by
  cases fb with
  | none => rfl
  | some b =>
      rcases Nat.eq_zero_or_pos b with rfl | hb
      · simp [chooseStart]
      · simp [chooseStart, hb]

/-- The trailing-comma pass is the identity on text containing no
comma-whitespace-closer pattern. -/
theorem stripCommasAux_id (fuel : Nat) :
    ∀ l : List Char, noCommaClose l = true → stripCommasAux fuel l = l := by
  induction fuel with
  | zero => intro l _; rfl
  | succ f ih =>
      intro l h
      cases l with
      | nil => rfl
      | cons c rest =>
          rw [stripCommasAux]
          rw [noCommaClose] at h
          by_cases hc : c = ','
          · subst hc
            rw [if_pos rfl] at h ⊢
            cases hd : rest.dropWhile jsWs with
            | nil =>
                simp only [hd] at h ⊢
                rw [ih rest h]
            | cons cl2 t2 =>
                simp only [hd] at h ⊢
                by_cases hcl : closeChar cl2 = true
                · rw [if_pos hcl] at h
                  exact absurd h (by simp)
                · rw [if_neg hcl] at h ⊢
                  rw [ih rest h]
          · rw [if_neg hc] at h ⊢
            rw [ih rest h]

/-- `stripCommas` is the identity on text with no trailing-comma pattern. -/
theorem stripCommas_id (l : List Char) (h : noCommaClose l = true) :
    stripCommas l = l :=
  stripCommasAux_id l.length l h

/-- Steps 2-4 of `repairJson` on a bracket-headed text whose remainder is
whitespace plus one scan-neutral closing segment: the start index is 0, the
balanced scan ends exactly at the last character, and the comma cleanup
(on pattern-free text) changes nothing. -/
theorem extract_id_of_valid_branch (op cl : Char)
    (hpair : (op = '{' ∧ cl = '}') ∨ (op = '[' ∧ cl = ']'))
    (t' cO : List Char) (hrest : skipWs t' = cO) (hseg : Seg op cl (-1) cO)
    (hclean : noCommaClose (op :: t') = true)
    (hstart : chooseStart (indexOfChar '{' (op :: t'))
      (indexOfChar '[' (op :: t')) = some 0) :
    extractPhase (op :: t') = op :: t' := by
  have hec : (if op = '{' then '}' else ']') = cl := by
    rcases hpair with ⟨rfl, rfl⟩ | ⟨rfl, rfl⟩ <;> decide
  have hstep : scanStep op cl initScan op = ⟨false, false, 1⟩ := by
    rcases hpair with ⟨rfl, rfl⟩ | ⟨rfl, rfl⟩ <;> decide
  obtain ⟨tw, htw_def⟩ : ∃ tw, tw = t'.takeWhile jsWs := ⟨_, rfl⟩
  have htwSeg : Seg op cl 0 tw := by
    rw [htw_def]
    exact seg_takeWhileWs op cl hpair t'
  have hsplit : t' = tw ++ cO := by
    rw [htw_def, ← hrest]
    exact skipWs_eq t'
  have hlen : t'.length = tw.length + cO.length := by
    rw [hsplit, List.length_append]
  have htw1 : scanFold op cl ⟨false, false, 1⟩ tw = ⟨false, false, 1⟩ := by
    have h := (htwSeg 1).1
    rwa [show (1 : Int) + 0 = 1 by norm_num] at h
  have hcO1 : scanFold op cl ⟨false, false, 1⟩ cO = ⟨false, false, 0⟩ := by
    have h := (hseg 1).1
    rwa [show (1 : Int) + (-1) = 0 by norm_num] at h
  have hfull : scanFold op cl initScan (op :: t') = ⟨false, false, 0⟩ := by
    rw [hsplit]
    show scanFold op cl (scanStep op cl initScan op) (tw ++ cO) = ⟨false, false, 0⟩
    rw [hstep, scanFold, List.foldl_append]
    show scanFold op cl (scanFold op cl ⟨false, false, 1⟩ tw) cO = ⟨false, false, 0⟩
    rw [htw1, hcO1]
  have hpre : ∀ k, 0 < k → k < (op :: t').length →
      1 ≤ (scanFold op cl initScan ((op :: t').take k)).depth := by
    intro k hk0 hkL
    obtain ⟨j, rfl⟩ : ∃ j, k = j + 1 := ⟨k - 1, by omega⟩
    rw [hsplit, List.take_succ_cons]
    show 1 ≤ (scanFold op cl (scanStep op cl initScan op) ((tw ++ cO).take j)).depth
    rw [hstep, List.take_append_eq_append_take, scanFold, List.foldl_append]
    show 1 ≤ (scanFold op cl (scanFold op cl ⟨false, false, 1⟩ (tw.take j))
      (cO.take (j - tw.length))).depth
    by_cases hj : j < tw.length
    · have h0 : j - tw.length = 0 := by omega
      rw [h0, List.take_zero]
      exact (htwSeg 1).2 j hj
    · have htake : tw.take j = tw := List.take_of_length_le (by omega)
      rw [htake, htw1]
      have hjlt : j - tw.length < cO.length := by
        simp only [List.length_cons] at hkL
        omega
      exact (hseg 1).2 _ hjlt
  have hfind : ((List.range (op :: t').length).find? fun n =>
      (scanFold op cl initScan ((op :: t').take (n + 1))).depth == 0) =
      some ((op :: t').length - 1) := by
    apply range_find?_last
    · simp
    · intro n hn
      show ((scanFold op cl initScan ((op :: t').take (n + 1))).depth == 0) = false
      have h1 := hpre (n + 1) (by omega) hn
      rw [beq_eq_false_iff_ne]
      omega
    · show ((scanFold op cl initScan
        ((op :: t').take ((op :: t').length - 1 + 1))).depth == 0) = true
      rw [show (op :: t').length - 1 + 1 = (op :: t').length by
        simp only [List.length_cons]; omega]
      rw [List.take_length, hfull]
      decide
  have hloop : scanLoop ((op :: t').headD ' ')
      (if (op :: t').headD ' ' = '{' then '}' else ']') (op :: t') 0 initScan =
      some ((op :: t').length - 1) := by
    show scanLoop op (if op = '{' then '}' else ']') (op :: t') 0 initScan = _
    rw [hec, scanLoop_eq_find op cl (op :: t') 0 initScan
      (fun h => by simp [initScan] at h), hfind]
    simp
  simp only [extractPhase, hstart, List.drop_zero, hloop]
  rw [show (op :: t').length - 1 + 1 = (op :: t').length by
    simp only [List.length_cons]; omega]
  rw [List.take_length]
  exact stripCommas_id _ hclean

/-- **C6 (counterexample).** `{"a":",}"}` is a complete, valid, unfenced
JSON object, yet `repairJson` corrupts it: the trailing-comma cleanup
`replace(/,\s*([}\]])/g, '$1')` runs blindly over the extracted text, so the
`",}"` inside the string literal loses its comma. -/
theorem c6_counterexample_comma_in_string :
    jsonValid "\x7b\"a\":\",\x7d\"\x7d".data = true ∧
    repairJson "\x7b\"a\":\",\x7d\"\x7d" = "\x7b\"a\":\"\x7d\"\x7d" :=
  ⟨by decide, by decide⟩

/-- **C6 (amended).** On a string that is a complete, valid top-level JSON
object or array with no surrounding whitespace, no occurrence of the
substring ```` ```json ````, and no occurrence of the trailing-comma pattern
(a comma followed by optional whitespace and a closing brace or bracket) —
not even inside its string literals — `repairJson` is the identity: the
fence step keeps the text, the balanced scan ends exactly at the final
closing character, and the comma cleanup finds nothing to change. -/
theorem c6_repair_identity_on_clean (t : List Char)
    (htrim : jsTrim t = t)
    (hfence : findSub "```json".data t = none)
    (hvalid : jsonValid t = true)
    (hclean : noCommaClose t = true) :
    repairJson ⟨t⟩ = ⟨t⟩ := by
  have hchars : repairChars t = t := by
    have hfstep : fenceStep t = t := by
      simp only [fenceStep, fenceGroup, hfence]
    rw [repairChars, htrim, hfstep]
    simp only [jsonValid, Bool.and_eq_true, beq_iff_eq] at hvalid
    obtain ⟨hhead, hpv⟩ := hvalid
    split at hhead
    · rename_i a
      obtain ⟨F, hF⟩ : ∃ F, 2 * ('{' :: a).length + 8 = F + 1 :=
        ⟨2 * ('{' :: a).length + 7, rfl⟩
      rw [hF] at hpv
      simp only [pVal] at hpv
      rw [if_pos trivial] at hpv
      obtain ⟨cO, hcO, hsegO⟩ :=
        (parsers_seg '{' '}' (Or.inl ⟨rfl, rfl⟩) F).2.1 _ _ hpv
      rw [List.append_nil] at hcO
      rw [if_pos rfl] at hsegO
      have hstart : chooseStart (indexOfChar '{' ('{' :: a))
          (indexOfChar '[' ('{' :: a)) = some 0 := by
        rw [indexOfChar_cons_self]
        exact chooseStart_brace_zero _
      exact extract_id_of_valid_branch '{' '}' (Or.inl ⟨rfl, rfl⟩)
        a cO hcO hsegO hclean hstart
    · rename_i a
      obtain ⟨F, hF⟩ : ∃ F, 2 * ('[' :: a).length + 8 = F + 1 :=
        ⟨2 * ('[' :: a).length + 7, rfl⟩
      rw [hF] at hpv
      simp only [pVal] at hpv
      rw [if_pos trivial] at hpv
      obtain ⟨cA, hcA, hsegA⟩ :=
        (parsers_seg '[' ']' (Or.inr ⟨rfl, rfl⟩) F).2.2.2.2.1 _ _ hpv
      rw [List.append_nil] at hcA
      rw [if_neg (by decide : ¬('[' : Char) = '{')] at hsegA
      have hstart : chooseStart (indexOfChar '{' ('[' :: a))
          (indexOfChar '[' ('[' :: a)) = some 0 := by
        rw [indexOfChar_cons_self]
        exact chooseStart_bracket_zero _
      exact extract_id_of_valid_branch '[' ']' (Or.inr ⟨rfl, rfl⟩)
        a cA hcA hsegA hclean hstart
    · exact absurd hhead (by simp)
  exact congrArg String.mk hchars

theorem c6_repair_identity_on_clean_witness :
    jsTrim "\x7b\"a\":[1,2]\x7d".data = "\x7b\"a\":[1,2]\x7d".data ∧
    findSub "```json".data "\x7b\"a\":[1,2]\x7d".data = none ∧
    jsonValid "\x7b\"a\":[1,2]\x7d".data = true ∧
    noCommaClose "\x7b\"a\":[1,2]\x7d".data = true ∧
    repairJson "\x7b\"a\":[1,2]\x7d" = "\x7b\"a\":[1,2]\x7d" :=
  ⟨by decide, by decide, by decide, by decide,
    c6_repair_identity_on_clean "\x7b\"a\":[1,2]\x7d".data
      (by decide) (by decide) (by decide) (by decide)⟩

end DebtRecon
